import Mathlib

/-
Verification of `linux_security/0x04_buffer_overflow/read_write_heap.py`.

The script locates the `[heap]` regions of a running process via
`/proc/<pid>/maps`, scans each region for a byte pattern, and overwrites
matches in `/proc/<pid>/mem`, with optional backup, dry-run and
replace-all behaviour.

The embedding below models process memory as a list of bytes
(`List Nat`, address = index), the maps file as a list of pre-tokenized
lines, and every externally visible side effect (memory reads, memory
writes, backup-file writes) as an explicit event trace.  Loops of the
script are embedded with an explicit fuel argument chosen large enough
to cover every iteration the script would perform, so that all
definitions compute by kernel reduction.
-/

namespace ReadWriteHeap

/-- MAX_HEAP_SIZE from the script: 100 MB safety limit used by `_backup_region`. -/
def MAX_HEAP_SIZE : Nat := 100 * 1024 * 1024

/-- BACKUP_EXTENSION from the script. -/
def BACKUP_EXTENSION : String := ".heapbak"

/-- ReplacementResult dataclass: `count`, `addresses`, `backup_file`. -/
structure ReplacementResult where
  count : Nat
  addresses : List Nat
  backup_file : Option String
deriving Repr, DecidableEq

/-- The distinct error kinds the script can raise
(ProcessLookupError, PermissionError, RuntimeError for a missing heap,
MemoryError for an oversized region, ValueError for a too-long replacement). -/
inductive Err where
  | processNotFound
  | permissionDenied
  | heapNotFound
  | regionTooLarge
  | lengthMismatch
deriving Repr, DecidableEq

/-- Externally visible side effects of one run: reads of `/proc/<pid>/mem`,
writes of a backup file, and writes to `/proc/<pid>/mem`. -/
inductive Event where
  | memRead (addr size : Nat)
  | backupWrite (fileName : String) (content : List Nat)
  | memWrite (addr : Nat) (data : List Nat)
deriving Repr, DecidableEq

/-- One pre-tokenized line of `/proc/<pid>/maps`: its parsed address range,
whether the line contains the substring `[heap]`, and whether it contains
the substring `rw` (the two tests `_locate_heap_regions` performs). -/
structure MapsLine where
  startAddr : Nat
  endAddr : Nat
  hasHeapTag : Bool
  hasRW : Bool
deriving Repr, DecidableEq

/-- The part of the system state the script interacts with: whether
`/proc/<pid>` exists, whether `/proc/<pid>/maps` is readable, the maps
lines, and the process memory (byte at address `i` = `mem.get? i`). -/
structure SysState where
  procExists : Bool
  mapsReadable : Bool
  mapsLines : List MapsLine
  mem : List Nat
deriving Repr, DecidableEq

/-- Lowercase hex rendering of a natural number, as Python `f"{n:x}"`. -/
def hexStr (n : Nat) : String :=
  String.mk (Nat.toDigits 16 n)

/-- Backup file name built in `find_and_replace`:
`f"{backup_prefix}_{start:x}-{end:x}{BACKUP_EXTENSION}"`. -/
def backupName (pfx : String) (startAddr endAddr : Nat) : String :=
  pfx ++ "_" ++ hexStr startAddr ++ "-" ++ hexStr endAddr ++ BACKUP_EXTENSION

/-- `mem.seek(addr); mem.read(size)` on the memory file: the bytes at
addresses `addr, addr+1, ...`, at most `size` of them (a read past the
end of the available data returns fewer bytes). -/
def readMem (mem : List Nat) (addr size : Nat) : List Nat :=
  (mem.drop addr).take size

/-- `mem_file.seek(addr); mem_file.write(data)`: overwrite the bytes at
`addr, addr+1, ...` with `data` (positions outside the memory are ignored,
matching `List.set`). -/
def writeBytes (mem : List Nat) (addr : Nat) (data : List Nat) : List Nat :=
  match data with
  | [] => mem
  | b :: rest => writeBytes (mem.set addr b) (addr + 1) rest

/-- The write burst the script performs for one match at absolute address
`abs_pos` (lines 144-149): write `replace_bytes`, then, if the replacement
is shorter than the search pattern, write `len(search)-len(replace)` zero
bytes right after it.  Returns the new memory and the write events. -/
def performWrite (mem : List Nat) (abs_pos : Nat)
    (search_bytes replace_bytes : List Nat) : List Nat × List Event :=
  let mem1 := writeBytes mem abs_pos replace_bytes
  let padding := search_bytes.length - replace_bytes.length
  if padding > 0 then
    (writeBytes mem1 (abs_pos + replace_bytes.length) (List.replicate padding 0),
     [Event.memWrite abs_pos replace_bytes,
      Event.memWrite (abs_pos + replace_bytes.length) (List.replicate padding 0)])
  else
    (mem1, [Event.memWrite abs_pos replace_bytes])

/-- Fuel-driven search loop behind Python `bytes.find(pattern, p)`:
the least `q ≥ p` such that `pattern` occurs in `data` at offset `q`
(fully contained), if the fuel covers the remaining offsets. -/
def findFromAux (data pat : List Nat) : Nat → Nat → Option Nat
  | 0, _ => none
  | gas + 1, p =>
    if p + pat.length ≤ data.length then
      if (data.drop p).take pat.length = pat then some p
      else findFromAux data pat gas (p + 1)
    else none

/-- Python `data.find(pat, p)` (with `none` for `-1`). -/
def bytesFind (data pat : List Nat) (p : Nat) : Option Nat :=
  findFromAux data pat (data.length + 1 - p) p

/-- `pat` occurs in `data` at offset `q` (fully contained). -/
def occursAt (data pat : List Nat) (q : Nat) : Prop :=
  q + pat.length ≤ data.length ∧ (data.drop q).take pat.length = pat

instance (data pat : List Nat) (q : Nat) : Decidable (occursAt data pat q) := by
  unfold occursAt; infer_instance

/-- The `while True` scan loop of `find_and_replace` (lines 134-155),
with explicit fuel.  Works on the snapshot `heap_data` read before the
loop; `mem` is the live process memory being patched.  Returns the
patched memory, the number of matches, the recorded absolute addresses
(in order), and the write events (in order). -/
def scanLoopAux (heap_data search_bytes replace_bytes : List Nat)
    (startAddr : Nat) (replace_all dry_run : Bool) :
    Nat → Nat → List Nat → List Nat × Nat × List Nat × List Event
  | 0, _, mem => (mem, 0, [], [])
  | gas + 1, offset, mem =>
    match bytesFind heap_data search_bytes offset with
    | none => (mem, 0, [], [])
    | some pos =>
      let abs_pos := startAddr + pos
      let step :=
        if dry_run then (mem, ([] : List Event))
        else performWrite mem abs_pos search_bytes replace_bytes
      if replace_all then
        let rest := scanLoopAux heap_data search_bytes replace_bytes startAddr
          replace_all dry_run gas (pos + 1) step.1
        (rest.1, rest.2.1 + 1, abs_pos :: rest.2.2.1, step.2 ++ rest.2.2.2)
      else (step.1, 1, [abs_pos], step.2)

/-- The scan loop started at offset 0 with enough fuel for every
iteration the script performs (the offset strictly increases and the
loop ends once it passes `len(heap_data)`). -/
def scanRegion (heap_data search_bytes replace_bytes : List Nat)
    (startAddr : Nat) (replace_all dry_run : Bool) (mem : List Nat) :
    List Nat × Nat × List Nat × List Event :=
  scanLoopAux heap_data search_bytes replace_bytes startAddr replace_all dry_run
    (heap_data.length + 1) 0 mem

/-- The sequence of match offsets the scan loop visits, as a pure
function of the snapshot, the pattern, the replace-all flag and the
starting offset. -/
def matchOffsetsAux (heap_data search_bytes : List Nat) (replace_all : Bool) :
    Nat → Nat → List Nat
  | 0, _ => []
  | gas + 1, offset =>
    match bytesFind heap_data search_bytes offset with
    | none => []
    | some pos =>
      if replace_all then
        pos :: matchOffsetsAux heap_data search_bytes replace_all gas (pos + 1)
      else [pos]

/-- Match offsets of a full region scan. -/
def matchOffsets (heap_data search_bytes : List Nat) (replace_all : Bool) :
    List Nat :=
  matchOffsetsAux heap_data search_bytes replace_all (heap_data.length + 1) 0

/-- `_locate_heap_regions` without the emptiness check: the `(start, end)`
ranges of the maps lines containing both `[heap]` and `rw`, in map order. -/
def heapRangesOf (lines : List MapsLine) : List (Nat × Nat) :=
  (lines.filter (fun l => l.hasHeapTag && l.hasRW)).map
    (fun l => (l.startAddr, l.endAddr))

/-- `_locate_heap_regions`: the heap ranges, or RuntimeError
("No accessible heap region found") when there are none. -/
def locateHeapRegions (lines : List MapsLine) : Except Err (List (Nat × Nat)) :=
  let ranges := heapRangesOf lines
  if ranges.isEmpty then Except.error Err.heapNotFound else Except.ok ranges

/-- `_backup_region`: refuse if `end - start` exceeds MAX_HEAP_SIZE,
otherwise read the region and write it verbatim to the backup file.
Returns the events of the backup (the size check happens before any
read). -/
def backupRegion (mem : List Nat) (startAddr endAddr : Nat)
    (fileName : String) : Except Err (List Event) :=
  let size := endAddr - startAddr
  if size > MAX_HEAP_SIZE then Except.error Err.regionTooLarge
  else Except.ok
    [Event.memRead startAddr size,
     Event.backupWrite fileName (readMem mem startAddr size)]

/-- The `for start, end in self.heap_ranges` loop of `find_and_replace`
(lines 118-155): per region, optionally back it up (recording the backup
file name in the result, overwriting the previous one), read the region
into `heap_data`, run the scan loop, and continue with the next region.
Returns the event trace (also on error: events already performed are
kept) and either an error or (final memory, count, addresses,
backup_file). -/
def processRegions (mem : List Nat) (ranges : List (Nat × Nat))
    (search_bytes replace_bytes : List Nat) (replace_all dry_run : Bool)
    (backupPfx : Option String) :
    List Event × Except Err (List Nat × Nat × List Nat × Option String) :=
  match ranges with
  | [] => ([], Except.ok (mem, 0, [], none))
  | (startAddr, endAddr) :: rest =>
    let size := endAddr - startAddr
    let backupStep : Except Err (Option String × List Event) :=
      match backupPfx with
      | some pfx =>
        match backupRegion mem startAddr endAddr (backupName pfx startAddr endAddr) with
        | Except.error e => Except.error e
        | Except.ok evs => Except.ok (some (backupName pfx startAddr endAddr), evs)
      | none => Except.ok (none, [])
    match backupStep with
    | Except.error e => ([], Except.error e)
    | Except.ok (bfile, bevs) =>
      let heap_data := readMem mem startAddr size
      let scanned := scanRegion heap_data search_bytes replace_bytes startAddr
        replace_all dry_run mem
      let restRun := processRegions scanned.1 rest search_bytes replace_bytes
        replace_all dry_run backupPfx
      (bevs ++ Event.memRead startAddr size :: scanned.2.2.2 ++ restRun.1,
       match restRun.2 with
       | Except.error e => Except.error e
       | Except.ok (memF, c, addrs, bf) =>
         Except.ok (memF, scanned.2.1 + c, scanned.2.2.1 ++ addrs,
           bf.orElse (fun _ => bfile)))

/-- `MemoryEditor.find_and_replace`: reject a replacement longer than the
search pattern, locate the heap regions, then process each region.
Returns the event trace and either an error or the
(ReplacementResult, final memory) pair. -/
def find_and_replace (st : SysState) (search_bytes replace_bytes : List Nat)
    (replace_all dry_run : Bool) (backupPfx : Option String) :
    List Event × Except Err (ReplacementResult × List Nat) :=
  if replace_bytes.length > search_bytes.length then
    ([], Except.error Err.lengthMismatch)
  else
    match locateHeapRegions st.mapsLines with
    | Except.error e => ([], Except.error e)
    | Except.ok ranges =>
      let run := processRegions st.mem ranges search_bytes replace_bytes
        replace_all dry_run backupPfx
      (run.1,
       match run.2 with
       | Except.error e => Except.error e
       | Except.ok (memF, c, addrs, bf) =>
         Except.ok ({ count := c, addresses := addrs, backup_file := bf }, memF))

/-- The whole tool on one request: `MemoryEditor.__init__` /
`_validate_process` (process existence, maps readability) followed by
`find_and_replace`. -/
def runTool (st : SysState) (search_bytes replace_bytes : List Nat)
    (replace_all dry_run : Bool) (backupPfx : Option String) :
    List Event × Except Err (ReplacementResult × List Nat) :=
  if st.procExists = false then ([], Except.error Err.processNotFound)
  else if st.mapsReadable = false then ([], Except.error Err.permissionDenied)
  else find_and_replace st search_bytes replace_bytes replace_all dry_run backupPfx

/-- Event `ev` is a memory write whose span `[a, a + len)` overlaps the
address range `[s, e)`. -/
def writesIntoB (ev : Event) (s e : Nat) : Bool :=
  match ev with
  | Event.memWrite a bs => decide (max a s < min (a + bs.length) e)
  | _ => false

/-- Event `ev` is a memory access (read or write) whose span overlaps the
address range `[s, e)`. -/
def touchesB (ev : Event) (s e : Nat) : Bool :=
  match ev with
  | Event.memRead a n => decide (max a s < min (a + n) e)
  | Event.memWrite a bs => decide (max a s < min (a + bs.length) e)
  | Event.backupWrite _ _ => false

/-- The backup file names written in a trace, in order. -/
def backupNames (tr : List Event) : List String :=
  tr.filterMap (fun ev =>
    match ev with
    | Event.backupWrite fn _ => some fn
    | _ => none)

/-- The heap ranges are pairwise disjoint as half-open intervals (always
true of the ranges parsed from `/proc/<pid>/maps`). -/
def rangesDisjoint (ranges : List (Nat × Nat)) : Prop :=
  ranges.Pairwise (fun r1 r2 => r1.2 ≤ r2.1 ∨ r2.2 ≤ r1.1)

instance (ranges : List (Nat × Nat)) : Decidable (rangesDisjoint ranges) := by
  unfold rangesDisjoint; exact List.instDecidablePairwise ranges

/-- The heap ranges appear in increasing address order without overlap
(the order of `/proc/<pid>/maps`). -/
def rangesOrdered (ranges : List (Nat × Nat)) : Prop :=
  ranges.Pairwise (fun r1 r2 => r1.2 ≤ r2.1)

instance (ranges : List (Nat × Nat)) : Decidable (rangesOrdered ranges) := by
  unfold rangesOrdered; exact List.instDecidablePairwise ranges

/-- The backup events of one region: none without a backup request,
otherwise the read of the region followed by the write of the backup
file (named after the region). -/
def backupEvents (bp : Option String) (mem : List Nat) (s e : Nat) : List Event :=
  match bp with
  | some pfx =>
    [Event.memRead s (e - s),
     Event.backupWrite (backupName pfx s e) (readMem mem s (e - s))]
  | none => []

/-- The backup file name recorded for one region, if a backup was
requested. -/
def backupFileOf (bp : Option String) (s e : Nat) : Option String :=
  bp.map (fun pfx => backupName pfx s e)

/-- A state with two heap regions whose bytes both contain the pattern
byte 1 (at addresses 0 and 2). -/
def stTwoRegions : SysState :=
  ⟨true, true, [⟨0, 2, true, true⟩, ⟨2, 4, true, true⟩], [1, 0, 1, 0]⟩

/-- A state whose single heap region holds the buffer "aaaa". -/
def stOverlap : SysState :=
  ⟨true, true, [⟨0, 4, true, true⟩], [97, 97, 97, 97]⟩

/-- A state whose single heap region is larger than MAX_HEAP_SIZE. -/
def stOversized : SysState :=
  ⟨true, true, [⟨0, MAX_HEAP_SIZE + 2, true, true⟩], [1, 2]⟩

/-- A state whose process does not exist. -/
def stMissing : SysState :=
  ⟨false, true, [⟨0, 2, true, true⟩], [1, 0]⟩

instance {ε α : Type} [DecidableEq ε] [DecidableEq α] : DecidableEq (Except ε α) :=
  fun x y =>
  match x, y with
  | Except.ok a, Except.ok b =>
    if h : a = b then Decidable.isTrue (by rw [h])
    else Decidable.isFalse (fun hh => h (Except.ok.inj hh))
  | Except.error a, Except.error b =>
    if h : a = b then Decidable.isTrue (by rw [h])
    else Decidable.isFalse (fun hh => h (Except.error.inj hh))
  | Except.ok _, Except.error _ => Decidable.isFalse (fun hh => Except.noConfusion hh)
  | Except.error _, Except.ok _ => Decidable.isFalse (fun hh => Except.noConfusion hh)


end ReadWriteHeap

namespace ReadWriteHeap

/-- Writing bytes does not change the length of the memory. -/
theorem writeBytes_length (data : List Nat) : ∀ (mem : List Nat) (addr : Nat),
    (writeBytes mem addr data).length = mem.length := by
  induction data with
  | nil => intro mem addr; rfl
  | cons b rest ih =>
    intro mem addr
    rw [writeBytes, ih, List.length_set]

/-- Bytes outside the written window are untouched. -/
theorem writeBytes_getElem_outside (data : List Nat) :
    ∀ (mem : List Nat) (addr i : Nat),
    i < addr ∨ addr + data.length ≤ i →
    (writeBytes mem addr data)[i]? = mem[i]? := by
  induction data with
  | nil => intro mem addr i _; rfl
  | cons b rest ih =>
    intro mem addr i h
    rw [writeBytes]
    have h2 : i < addr + 1 ∨ (addr + 1) + rest.length ≤ i := by
      simp only [List.length_cons] at h; omega
    rw [ih (mem.set addr b) (addr + 1) i h2, List.getElem?_set]
    have hne : ¬ addr = i := by
      simp only [List.length_cons] at h; omega
    simp [hne]

/-- Bytes inside the written window equal the written data. -/
theorem writeBytes_getElem_inside (data : List Nat) :
    ∀ (mem : List Nat) (addr i : Nat),
    addr ≤ i → i < addr + data.length → i < mem.length →
    (writeBytes mem addr data)[i]? = data[i - addr]? := by
  induction data with
  | nil =>
    intro mem addr i h1 h2 _
    simp only [List.length_nil] at h2; omega
  | cons b rest ih =>
    intro mem addr i h1 h2 h3
    rw [writeBytes]
    by_cases hi : i = addr
    · subst hi
      rw [writeBytes_getElem_outside rest (mem.set i b) (i + 1) i (Or.inl (by omega))]
      rw [List.getElem?_set]
      simp [h3]
    · have h1' : addr + 1 ≤ i := by omega
      have h2' : i < (addr + 1) + rest.length := by
        simp only [List.length_cons] at h2; omega
      have h3' : i < (mem.set addr b).length := by
        rw [List.length_set]; exact h3
      rw [ih (mem.set addr b) (addr + 1) i h1' h2' h3']
      have e : i - addr = (i - (addr + 1)) + 1 := by omega
      rw [e]
      simp

/-- Two consecutive write bursts amount to writing the concatenation. -/
theorem writeBytes_append (bs1 bs2 : List Nat) : ∀ (mem : List Nat) (addr : Nat),
    writeBytes mem addr (bs1 ++ bs2)
      = writeBytes (writeBytes mem addr bs1) (addr + bs1.length) bs2 := by
  induction bs1 with
  | nil => intro mem addr; simp [writeBytes]
  | cons b rest ih =>
    intro mem addr
    have e : addr + (b :: rest).length = (addr + 1) + rest.length := by
      simp only [List.length_cons]; omega
    rw [e]
    simp only [List.cons_append, writeBytes]
    exact ih (mem.set addr b) (addr + 1)

/-- A successful `findFromAux` returns an occurrence at or after the start
offset, and it is the first one. -/
theorem findFromAux_some {data pat : List Nat} : ∀ {gas p q : Nat},
    findFromAux data pat gas p = some q →
    p ≤ q ∧ occursAt data pat q ∧ ∀ r, p ≤ r → r < q → ¬ occursAt data pat r := by
  intro gas
  induction gas with
  | zero => intro p q h; simp [findFromAux] at h
  | succ gas ih =>
    intro p q h
    rw [findFromAux] at h
    by_cases h1 : p + pat.length ≤ data.length
    · rw [if_pos h1] at h
      by_cases h2 : (data.drop p).take pat.length = pat
      · rw [if_pos h2] at h
        cases h
        exact ⟨le_refl _, ⟨h1, h2⟩, fun r hr1 hr2 _ => absurd hr2 (by omega)⟩
      · rw [if_neg h2] at h
        obtain ⟨hq1, hq2, hq3⟩ := ih h
        refine ⟨by omega, hq2, ?_⟩
        intro r hr1 hr2 hocc
        rcases Nat.eq_or_lt_of_le hr1 with heq | hlt
        · exact h2 (heq ▸ hocc.2)
        · exact hq3 r hlt hr2 hocc
    · rw [if_neg h1] at h
      cases h

/-- With enough fuel, a failed `findFromAux` means no occurrence at or
after the start offset. -/
theorem findFromAux_none {data pat : List Nat} : ∀ {gas p : Nat},
    data.length < gas + p → findFromAux data pat gas p = none →
    ∀ r, p ≤ r → ¬ occursAt data pat r := by
  intro gas
  induction gas with
  | zero =>
    intro p hp _ r hr hocc
    have := hocc.1
    omega
  | succ gas ih =>
    intro p hp h r hr hocc
    rw [findFromAux] at h
    by_cases h1 : p + pat.length ≤ data.length
    · rw [if_pos h1] at h
      by_cases h2 : (data.drop p).take pat.length = pat
      · rw [if_pos h2] at h; cases h
      · rw [if_neg h2] at h
        rcases Nat.eq_or_lt_of_le hr with heq | hlt
        · exact h2 (heq ▸ hocc.2)
        · exact ih (by omega) h r hlt hocc
    · have := hocc.1
      omega

/-- A successful `bytesFind` returns the first occurrence at or after `p`. -/
theorem bytesFind_some {data pat : List Nat} {p q : Nat}
    (h : bytesFind data pat p = some q) :
    p ≤ q ∧ occursAt data pat q ∧ ∀ r, p ≤ r → r < q → ¬ occursAt data pat r :=
  findFromAux_some h

/-- A failed `bytesFind` means no occurrence at or after `p`. -/
theorem bytesFind_none {data pat : List Nat} {p : Nat}
    (h : bytesFind data pat p = none) :
    ∀ r, p ≤ r → ¬ occursAt data pat r :=
  findFromAux_none (by omega) h

end ReadWriteHeap
namespace ReadWriteHeap

/-- With a replacement no longer than the search pattern, the write burst
for one match is a single combined write of the replacement followed by
the zero padding. -/
theorem performWrite_mem_eq (mem : List Nat) (abs_pos : Nat)
    (search_bytes replace_bytes : List Nat) :
    (performWrite mem abs_pos search_bytes replace_bytes).1
      = writeBytes mem abs_pos
          (replace_bytes ++
            List.replicate (search_bytes.length - replace_bytes.length) 0) := by
  by_cases hp : search_bytes.length - replace_bytes.length > 0
  · simp only [performWrite, if_pos hp]
    rw [writeBytes_append]
  · have h0 : search_bytes.length - replace_bytes.length = 0 := by omega
    simp [performWrite, h0]

/-- Every event of one write burst is a memory write inside the
`len(search)`-byte match window. -/
theorem performWrite_events (mem : List Nat) (abs_pos : Nat)
    (search_bytes replace_bytes : List Nat)
    (hrb : replace_bytes.length ≤ search_bytes.length) :
    ∀ ev ∈ (performWrite mem abs_pos search_bytes replace_bytes).2,
    ∃ a bs, ev = Event.memWrite a bs ∧ abs_pos ≤ a
      ∧ a + bs.length ≤ abs_pos + search_bytes.length := by
  intro ev hev
  by_cases hp : search_bytes.length - replace_bytes.length > 0
  · simp only [performWrite, if_pos hp, List.mem_cons, List.not_mem_nil,
      or_false] at hev
    rcases hev with rfl | rfl
    · exact ⟨abs_pos, replace_bytes, rfl, le_refl _, by omega⟩
    · refine ⟨abs_pos + replace_bytes.length, _, rfl, by omega, ?_⟩
      rw [List.length_replicate]
      omega
  · simp only [performWrite, if_neg hp, List.mem_cons, List.not_mem_nil,
      or_false] at hev
    subst hev
    exact ⟨abs_pos, replace_bytes, rfl, le_refl _, by omega⟩

/-- Every offset the scan loop records is at or after the starting offset. -/
theorem matchOffsetsAux_ge (hd sb : List Nat) (ra : Bool) : ∀ (gas off q : Nat),
    q ∈ matchOffsetsAux hd sb ra gas off → off ≤ q := by
  intro gas
  induction gas with
  | zero => intro off q h; simp [matchOffsetsAux] at h
  | succ gas ih =>
    intro off q h
    cases hf : bytesFind hd sb off with
    | none => simp [matchOffsetsAux, hf] at h
    | some pos =>
      simp only [matchOffsetsAux, hf] at h
      have hpos := (bytesFind_some hf).1
      by_cases hra : ra = true
      · rw [if_pos hra] at h
        rcases List.mem_cons.mp h with rfl | hmem
        · exact hpos
        · have := ih (pos + 1) q hmem
          omega
      · rw [if_neg hra] at h
        rcases List.mem_singleton.mp h with rfl
        exact hpos

/-- Every offset the scan loop records is a full occurrence of the
pattern inside the snapshot. -/
theorem matchOffsetsAux_occurs (hd sb : List Nat) (ra : Bool) : ∀ (gas off q : Nat),
    q ∈ matchOffsetsAux hd sb ra gas off → occursAt hd sb q := by
  intro gas
  induction gas with
  | zero => intro off q h; simp [matchOffsetsAux] at h
  | succ gas ih =>
    intro off q h
    cases hf : bytesFind hd sb off with
    | none => simp [matchOffsetsAux, hf] at h
    | some pos =>
      simp only [matchOffsetsAux, hf] at h
      have hocc := (bytesFind_some hf).2.1
      by_cases hra : ra = true
      · rw [if_pos hra] at h
        rcases List.mem_cons.mp h with rfl | hmem
        · exact hocc
        · exact ih (pos + 1) q hmem
      · rw [if_neg hra] at h
        rcases List.mem_singleton.mp h with rfl
        exact hocc

/-- The recorded offsets are strictly increasing. -/
theorem matchOffsetsAux_sorted (hd sb : List Nat) (ra : Bool) : ∀ (gas off : Nat),
    (matchOffsetsAux hd sb ra gas off).Pairwise (· < ·) := by
  intro gas
  induction gas with
  | zero => intro off; simp [matchOffsetsAux]
  | succ gas ih =>
    intro off
    cases hf : bytesFind hd sb off with
    | none => simp [matchOffsetsAux, hf]
    | some pos =>
      simp only [matchOffsetsAux, hf]
      by_cases hra : ra = true
      · rw [if_pos hra]
        refine List.Pairwise.cons ?_ (ih (pos + 1))
        intro q hq
        have := matchOffsetsAux_ge hd sb ra gas (pos + 1) q hq
        omega
      · rw [if_neg hra]
        simp

/-- With `replace_all = false` at most one offset is recorded. -/
theorem matchOffsetsAux_single (hd sb : List Nat) : ∀ (gas off : Nat),
    (matchOffsetsAux hd sb false gas off).length ≤ 1 := by
  intro gas
  cases gas with
  | zero => intro off; simp [matchOffsetsAux]
  | succ gas =>
    intro off
    cases hf : bytesFind hd sb off with
    | none => simp [matchOffsetsAux, hf]
    | some pos => simp [matchOffsetsAux, hf]

/-- With `replace_all = true` and enough fuel, the recorded offsets are
exactly the occurrences of the pattern at or after the start offset. -/
theorem matchOffsetsAux_mem (hd sb : List Nat) : ∀ (gas off q : Nat),
    hd.length < gas + off →
    (q ∈ matchOffsetsAux hd sb true gas off ↔ off ≤ q ∧ occursAt hd sb q) := by
  intro gas
  induction gas with
  | zero =>
    intro off q hgas
    simp only [matchOffsetsAux, List.not_mem_nil, false_iff]
    intro hc
    have := hc.2.1
    omega
  | succ gas ih =>
    intro off q hgas
    cases hf : bytesFind hd sb off with
    | none =>
      simp only [matchOffsetsAux, hf, List.not_mem_nil, false_iff]
      intro hc
      exact bytesFind_none hf q hc.1 hc.2
    | some pos =>
      obtain ⟨hge, hocc, hfirst⟩ := bytesFind_some hf
      simp only [matchOffsetsAux, hf, eq_self_iff_true, if_true, List.mem_cons]
      constructor
      · intro h
        rcases h with rfl | hmem
        · exact ⟨hge, hocc⟩
        · have h1 := (ih (pos + 1) q (by omega)).mp hmem
          exact ⟨by omega, h1.2⟩
      · intro hx
        obtain ⟨hq1, hq2⟩ := hx
        by_cases hq : q = pos
        · exact Or.inl hq
        · have hgt : pos < q := by
            rcases Nat.lt_or_ge q pos with hlt | hge2
            · exact absurd hq2 (hfirst q hq1 hlt)
            · omega
          exact Or.inr ((ih (pos + 1) q (by omega)).mpr ⟨by omega, hq2⟩)

end ReadWriteHeap

namespace ReadWriteHeap

/-- A write burst preserves the memory length. -/
theorem performWrite_length (mem : List Nat) (abs_pos : Nat)
    (search_bytes replace_bytes : List Nat) :
    (performWrite mem abs_pos search_bytes replace_bytes).1.length = mem.length := by
  rw [performWrite_mem_eq, writeBytes_length]

/-- A write burst does not change bytes outside the match window. -/
theorem performWrite_frame (mem : List Nat) (abs_pos : Nat)
    (search_bytes replace_bytes : List Nat)
    (hrb : replace_bytes.length ≤ search_bytes.length) (i : Nat)
    (h : i < abs_pos ∨ abs_pos + search_bytes.length ≤ i) :
    ((performWrite mem abs_pos search_bytes replace_bytes).1)[i]? = mem[i]? := by
  rw [performWrite_mem_eq]
  apply writeBytes_getElem_outside
  have hlen : (replace_bytes ++
      List.replicate (search_bytes.length - replace_bytes.length) 0).length
      = search_bytes.length := by
    rw [List.length_append, List.length_replicate]
    omega
  rw [hlen]
  exact h

/-- The count and address list of the scan loop are determined by the
snapshot, the pattern, the replace-all flag and the start offset: they do
not depend on the replacement bytes, the dry-run flag or the live memory. -/
theorem scanLoopAux_spec (hd sb rb : List Nat) (s : Nat) (ra dr : Bool) :
    ∀ (gas off : Nat) (mem : List Nat),
    (scanLoopAux hd sb rb s ra dr gas off mem).2.1
        = (matchOffsetsAux hd sb ra gas off).length
    ∧ (scanLoopAux hd sb rb s ra dr gas off mem).2.2.1
        = (matchOffsetsAux hd sb ra gas off).map (fun x => s + x) := by
  intro gas
  induction gas with
  | zero => intro off mem; simp [scanLoopAux, matchOffsetsAux]
  | succ gas ih =>
    intro off mem
    cases hf : bytesFind hd sb off with
    | none => simp [scanLoopAux, matchOffsetsAux, hf]
    | some pos =>
      simp only [scanLoopAux, matchOffsetsAux, hf]
      by_cases hra : ra = true
      · subst hra
        rw [if_pos rfl, if_pos rfl]
        constructor
        · simp [(ih (pos + 1) _).1]
        · simp [(ih (pos + 1) _).2]
      · rw [if_neg hra, if_neg hra]
        simp

/-- A dry run leaves the memory untouched and emits no write events. -/
theorem scanLoopAux_dry (hd sb rb : List Nat) (s : Nat) (ra : Bool) :
    ∀ (gas off : Nat) (mem : List Nat),
    (scanLoopAux hd sb rb s ra true gas off mem).1 = mem
    ∧ (scanLoopAux hd sb rb s ra true gas off mem).2.2.2 = [] := by
  intro gas
  induction gas with
  | zero => intro off mem; simp [scanLoopAux]
  | succ gas ih =>
    intro off mem
    cases hf : bytesFind hd sb off with
    | none => simp [scanLoopAux, hf]
    | some pos =>
      simp only [scanLoopAux, hf, if_pos rfl]
      by_cases hra : ra = true
      · subst hra
        rw [if_pos rfl]
        refine ⟨(ih (pos + 1) mem).1, ?_⟩
        simp [(ih (pos + 1) mem).2]
      · rw [if_neg hra]
        simp

/-- The scan loop preserves the memory length. -/
theorem scanLoopAux_length (hd sb rb : List Nat) (s : Nat) (ra dr : Bool) :
    ∀ (gas off : Nat) (mem : List Nat),
    (scanLoopAux hd sb rb s ra dr gas off mem).1.length = mem.length := by
  intro gas
  induction gas with
  | zero => intro off mem; simp [scanLoopAux]
  | succ gas ih =>
    intro off mem
    cases hf : bytesFind hd sb off with
    | none => simp [scanLoopAux, hf]
    | some pos =>
      simp only [scanLoopAux, hf]
      have hstep : (if dr = true then (mem, ([] : List Event))
          else performWrite mem (s + pos) sb rb).1.length = mem.length := by
        by_cases hdr : dr = true
        · rw [if_pos hdr]
        · rw [if_neg hdr]
          exact performWrite_length ..
      by_cases hra : ra = true
      · subst hra
        rw [if_pos rfl]
        rw [ih (pos + 1) _]
        exact hstep
      · rw [if_neg hra]
        exact hstep

/-- The scan loop does not change bytes outside the scanned window
`[startAddr, startAddr + len(heap_data))`. -/
theorem scanLoopAux_frame (hd sb rb : List Nat) (s : Nat) (ra dr : Bool)
    (hrb : rb.length ≤ sb.length) :
    ∀ (gas off : Nat) (mem : List Nat) (i : Nat),
    i < s ∨ s + hd.length ≤ i →
    ((scanLoopAux hd sb rb s ra dr gas off mem).1)[i]? = mem[i]? := by
  intro gas
  induction gas with
  | zero => intro off mem i _; simp [scanLoopAux]
  | succ gas ih =>
    intro off mem i hi
    cases hf : bytesFind hd sb off with
    | none => simp [scanLoopAux, hf]
    | some pos =>
      have hb : pos + sb.length ≤ hd.length := (bytesFind_some hf).2.1.1
      have hout : i < s + pos ∨ (s + pos) + sb.length ≤ i := by
        rcases hi with hi | hi
        · left; omega
        · right; omega
      have hstep : (if dr = true then (mem, ([] : List Event))
          else performWrite mem (s + pos) sb rb).1[i]? = mem[i]? := by
        by_cases hdr : dr = true
        · rw [if_pos hdr]
        · rw [if_neg hdr]
          exact performWrite_frame mem (s + pos) sb rb hrb i hout
      simp only [scanLoopAux, hf]
      by_cases hra : ra = true
      · subst hra
        rw [if_pos rfl]
        rw [ih (pos + 1) _ i hi]
        exact hstep
      · rw [if_neg hra]
        exact hstep

/-- Every event the scan loop emits is a memory write inside the scanned
window. -/
theorem scanLoopAux_events (hd sb rb : List Nat) (s : Nat) (ra dr : Bool)
    (hrb : rb.length ≤ sb.length) :
    ∀ (gas off : Nat) (mem : List Nat),
    ∀ ev ∈ (scanLoopAux hd sb rb s ra dr gas off mem).2.2.2,
    ∃ a bs, ev = Event.memWrite a bs ∧ s ≤ a ∧ a + bs.length ≤ s + hd.length := by
  intro gas
  induction gas with
  | zero => intro off mem ev hev; simp [scanLoopAux] at hev
  | succ gas ih =>
    intro off mem ev hev
    cases hf : bytesFind hd sb off with
    | none => simp [scanLoopAux, hf] at hev
    | some pos =>
      have hb : pos + sb.length ≤ hd.length := (bytesFind_some hf).2.1.1
      have hstep : ∀ mem2, ∀ ev2 ∈ (if dr = true then (mem2, ([] : List Event))
          else performWrite mem2 (s + pos) sb rb).2,
          ∃ a bs, ev2 = Event.memWrite a bs ∧ s ≤ a
            ∧ a + bs.length ≤ s + hd.length := by
        intro mem2 ev2 hev2
        by_cases hdr : dr = true
        · rw [if_pos hdr] at hev2
          simp at hev2
        · rw [if_neg hdr] at hev2
          obtain ⟨a, bs, heq, ha1, ha2⟩ :=
            performWrite_events mem2 (s + pos) sb rb hrb ev2 hev2
          exact ⟨a, bs, heq, by omega, by omega⟩
      simp only [scanLoopAux, hf] at hev
      by_cases hra : ra = true
      · subst hra
        rw [if_pos rfl] at hev
        rw [List.mem_append] at hev
        rcases hev with hev | hev
        · exact hstep mem ev hev
        · exact ih (pos + 1) _ ev hev
      · rw [if_neg hra] at hev
        exact hstep mem ev hev

end ReadWriteHeap

namespace ReadWriteHeap

/-- Length of a region read. -/
theorem readMem_length (mem : List Nat) (addr size : Nat) :
    (readMem mem addr size).length = min size (mem.length - addr) := by
  simp [readMem, List.length_take, List.length_drop]

/-- A region read returns at most `size` bytes. -/
theorem readMem_length_le (mem : List Nat) (addr size : Nat) :
    (readMem mem addr size).length ≤ size := by
  rw [readMem_length]
  omega

/-- Pointwise description of a region read. -/
theorem readMem_getElem (mem : List Nat) (addr size i : Nat) :
    (readMem mem addr size)[i]? = if i < size then mem[addr + i]? else none := by
  simp [readMem, List.getElem?_take, List.getElem?_drop]

/-- Two memories of equal length that agree on a window have equal reads
of that window. -/
theorem readMem_congr (m1 m2 : List Nat) (addr size : Nat)
    (h : ∀ i, addr ≤ i → i < addr + size → m1[i]? = m2[i]?) :
    readMem m1 addr size = readMem m2 addr size := by
  apply List.ext_getElem?
  intro n
  rw [readMem_getElem, readMem_getElem]
  by_cases hn : n < size
  · rw [if_pos hn, if_pos hn]
    exact h (addr + n) (by omega) (by omega)
  · rw [if_neg hn, if_neg hn]

/-- Reading back a fully in-bounds write returns the written bytes. -/
theorem readMem_writeBytes (mem : List Nat) (addr : Nat) (bs : List Nat)
    (h : addr + bs.length ≤ mem.length) :
    readMem (writeBytes mem addr bs) addr bs.length = bs := by
  apply List.ext_getElem?
  intro n
  rw [readMem_getElem]
  by_cases hn : n < bs.length
  · rw [if_pos hn]
    rw [writeBytes_getElem_inside bs mem addr (addr + n) (by omega) (by omega)
      (by omega)]
    have e : addr + n - addr = n := by omega
    rw [e]
  · rw [if_neg hn]
    symm
    exact List.getElem?_eq_none (by omega)

/-- Prefixes of two memories of equal length that agree pointwise below
`n` are equal. -/
theorem take_congr (l1 l2 : List Nat) (n : Nat)
    (h : ∀ i, i < n → l1[i]? = l2[i]?) : l1.take n = l2.take n := by
  apply List.ext_getElem?
  intro m
  rw [List.getElem?_take, List.getElem?_take]
  by_cases hm : m < n
  · rw [if_pos hm, if_pos hm]
    exact h m hm
  · rw [if_neg hm, if_neg hm]

/-- Suffixes of two memories of equal length that agree pointwise from
`n` on are equal. -/
theorem drop_congr (l1 l2 : List Nat) (n : Nat)
    (h : ∀ i, n ≤ i → l1[i]? = l2[i]?) : l1.drop n = l2.drop n := by
  apply List.ext_getElem?
  intro m
  rw [List.getElem?_drop, List.getElem?_drop]
  exact h (n + m) (by omega)

/-- Scanning one region leaves the reads of any range disjoint from that
region unchanged. -/
theorem scan_readMem_other (hd sb rb : List Nat) (ra dr : Bool)
    (hrb : rb.length ≤ sb.length) (gas off : Nat) (mem : List Nat)
    (s1 e1 s2 n2 : Nat) (hsize : hd.length ≤ e1 - s1)
    (hdisj2 : e1 ≤ s2 ∨ s2 + n2 ≤ s1) :
    readMem ((scanLoopAux hd sb rb s1 ra dr gas off mem).1) s2 n2
      = readMem mem s2 n2 := by
  apply readMem_congr
  intro i hi1 hi2
  apply scanLoopAux_frame hd sb rb s1 ra dr hrb gas off mem i
  omega

end ReadWriteHeap

namespace ReadWriteHeap

/-- Unfolding `processRegions` on one region without a backup request. -/
theorem processRegions_cons_none (mem : List Nat) (s e : Nat)
    (rest : List (Nat × Nat)) (sb rb : List Nat) (ra dr : Bool) :
    processRegions mem ((s, e) :: rest) sb rb ra dr none
      = (Event.memRead s (e - s)
           :: (scanRegion (readMem mem s (e - s)) sb rb s ra dr mem).2.2.2
           ++ (processRegions (scanRegion (readMem mem s (e - s)) sb rb s ra dr mem).1
                 rest sb rb ra dr none).1,
         match (processRegions (scanRegion (readMem mem s (e - s)) sb rb s ra dr mem).1
                 rest sb rb ra dr none).2 with
         | Except.error err => Except.error err
         | Except.ok (memF, c, addrs, bf) =>
           Except.ok (memF,
             (scanRegion (readMem mem s (e - s)) sb rb s ra dr mem).2.1 + c,
             (scanRegion (readMem mem s (e - s)) sb rb s ra dr mem).2.2.1 ++ addrs,
             bf.orElse (fun _ => none))) := rfl

/-- Unfolding `processRegions` on one oversized region with a backup
request: the size check fails before any event. -/
theorem processRegions_cons_big (mem : List Nat) (s e : Nat)
    (rest : List (Nat × Nat)) (sb rb : List Nat) (ra dr : Bool) (pfx : String)
    (hsz : MAX_HEAP_SIZE < e - s) :
    processRegions mem ((s, e) :: rest) sb rb ra dr (some pfx)
      = ([], Except.error Err.regionTooLarge) := by
  simp only [processRegions, backupRegion]
  rw [if_pos hsz]

/-- Unfolding `processRegions` on one region with a backup request that
passes the size check. -/
theorem processRegions_cons_some (mem : List Nat) (s e : Nat)
    (rest : List (Nat × Nat)) (sb rb : List Nat) (ra dr : Bool) (pfx : String)
    (hsz : ¬ MAX_HEAP_SIZE < e - s) :
    processRegions mem ((s, e) :: rest) sb rb ra dr (some pfx)
      = (Event.memRead s (e - s)
           :: Event.backupWrite (backupName pfx s e) (readMem mem s (e - s))
           :: Event.memRead s (e - s)
           :: (scanRegion (readMem mem s (e - s)) sb rb s ra dr mem).2.2.2
           ++ (processRegions (scanRegion (readMem mem s (e - s)) sb rb s ra dr mem).1
                 rest sb rb ra dr (some pfx)).1,
         match (processRegions (scanRegion (readMem mem s (e - s)) sb rb s ra dr mem).1
                 rest sb rb ra dr (some pfx)).2 with
         | Except.error err => Except.error err
         | Except.ok (memF, c, addrs, bf) =>
           Except.ok (memF,
             (scanRegion (readMem mem s (e - s)) sb rb s ra dr mem).2.1 + c,
             (scanRegion (readMem mem s (e - s)) sb rb s ra dr mem).2.2.1 ++ addrs,
             bf.orElse (fun _ => some (backupName pfx s e)))) := by
  simp only [processRegions, backupRegion]
  rw [if_neg hsz]
  rfl

end ReadWriteHeap

namespace ReadWriteHeap

/-- Count and addresses of a full region scan. -/
theorem scanRegion_spec (hd sb rb : List Nat) (s : Nat) (ra dr : Bool)
    (mem : List Nat) :
    (scanRegion hd sb rb s ra dr mem).2.1 = (matchOffsets hd sb ra).length
    ∧ (scanRegion hd sb rb s ra dr mem).2.2.1
        = (matchOffsets hd sb ra).map (fun x => s + x) :=
  scanLoopAux_spec hd sb rb s ra dr (hd.length + 1) 0 mem

/-- A dry full region scan does not change the memory and emits no
events. -/
theorem scanRegion_dry (hd sb rb : List Nat) (s : Nat) (ra : Bool)
    (mem : List Nat) :
    (scanRegion hd sb rb s ra true mem).1 = mem
    ∧ (scanRegion hd sb rb s ra true mem).2.2.2 = [] :=
  scanLoopAux_dry hd sb rb s ra (hd.length + 1) 0 mem

/-- A full region scan preserves the memory length. -/
theorem scanRegion_length (hd sb rb : List Nat) (s : Nat) (ra dr : Bool)
    (mem : List Nat) :
    (scanRegion hd sb rb s ra dr mem).1.length = mem.length :=
  scanLoopAux_length hd sb rb s ra dr (hd.length + 1) 0 mem

/-- A full region scan leaves reads of a disjoint range unchanged. -/
theorem scanRegion_readMem_other (hd sb rb : List Nat) (ra dr : Bool)
    (hrb : rb.length ≤ sb.length) (mem : List Nat) (s1 e1 s2 n2 : Nat)
    (hsize : hd.length ≤ e1 - s1) (hdisj2 : e1 ≤ s2 ∨ s2 + n2 ≤ s1) :
    readMem ((scanRegion hd sb rb s1 ra dr mem).1) s2 n2
      = readMem mem s2 n2 :=
  scan_readMem_other hd sb rb ra dr hrb (hd.length + 1) 0 mem s1 e1 s2 n2
    hsize hdisj2

/-- Every event of a full region scan is a memory write inside the
scanned window. -/
theorem scanRegion_events (hd sb rb : List Nat) (s : Nat) (ra dr : Bool)
    (hrb : rb.length ≤ sb.length) (mem : List Nat) :
    ∀ ev ∈ (scanRegion hd sb rb s ra dr mem).2.2.2,
    ∃ a bs, ev = Event.memWrite a bs ∧ s ≤ a ∧ a + bs.length ≤ s + hd.length :=
  scanLoopAux_events hd sb rb s ra dr hrb (hd.length + 1) 0 mem

/-- The reported count always equals the number of recorded addresses. -/
theorem processRegions_count (ranges : List (Nat × Nat)) (sb rb : List Nat)
    (ra dr : Bool) (bp : Option String) :
    ∀ (mem memF : List Nat) (c : Nat) (addrs : List Nat) (bf : Option String),
    (processRegions mem ranges sb rb ra dr bp).2 = Except.ok (memF, c, addrs, bf) →
    c = addrs.length := by
  induction ranges with
  | nil =>
    intro mem memF c addrs bf h
    simp only [processRegions, Except.ok.injEq, Prod.mk.injEq] at h
    obtain ⟨-, h2, h3, -⟩ := h
    subst h2; subst h3
    rfl
  | cons head rest ih =>
    obtain ⟨s, e⟩ := head
    intro mem memF c addrs bf h
    have hstep : ∀ (tr : List Event),
        (processRegions mem ((s, e) :: rest) sb rb ra dr bp)
          = (tr,
             match (processRegions
                 (scanRegion (readMem mem s (e - s)) sb rb s ra dr mem).1
                 rest sb rb ra dr bp).2 with
             | Except.error err => Except.error err
             | Except.ok (memF2, c2, addrs2, bf2) =>
               Except.ok (memF2,
                 (scanRegion (readMem mem s (e - s)) sb rb s ra dr mem).2.1 + c2,
                 (scanRegion (readMem mem s (e - s)) sb rb s ra dr mem).2.2.1 ++ addrs2,
                 bf2.orElse (fun _ => backupFileOf bp s e))) →
        c = addrs.length := by
      intro tr heq
      rw [heq] at h
      simp only at h
      cases hrest : (processRegions
          (scanRegion (readMem mem s (e - s)) sb rb s ra dr mem).1
          rest sb rb ra dr bp).2 with
      | error err => rw [hrest] at h; simp at h
      | ok out =>
        obtain ⟨memF2, c2, addrs2, bf2⟩ := out
        rw [hrest] at h
        simp only [Except.ok.injEq, Prod.mk.injEq] at h
        obtain ⟨-, h2, h3, -⟩ := h
        have hc2 := ih _ memF2 c2 addrs2 bf2 hrest
        rw [← h2, ← h3, List.length_append]
        rw [(scanRegion_spec (readMem mem s (e - s)) sb rb s ra dr mem).1,
          (scanRegion_spec (readMem mem s (e - s)) sb rb s ra dr mem).2]
        rw [List.length_map, hc2]
    cases bp with
    | none =>
      exact hstep _ (by rw [processRegions_cons_none]; rfl)
    | some pfx =>
      by_cases hsz : MAX_HEAP_SIZE < e - s
      · rw [processRegions_cons_big mem s e rest sb rb ra dr pfx hsz] at h
        simp at h
      · exact hstep _ (by rw [processRegions_cons_some mem s e rest sb rb ra dr pfx hsz]; rfl)

end ReadWriteHeap

namespace ReadWriteHeap

/-- A dry run returns the memory unchanged. -/
theorem processRegions_dry_mem (ranges : List (Nat × Nat)) (sb rb : List Nat)
    (ra : Bool) (bp : Option String) :
    ∀ (mem memF : List Nat) (c : Nat) (addrs : List Nat) (bf : Option String),
    (processRegions mem ranges sb rb ra true bp).2 = Except.ok (memF, c, addrs, bf) →
    memF = mem := by
  induction ranges with
  | nil =>
    intro mem memF c addrs bf h
    simp only [processRegions, Except.ok.injEq, Prod.mk.injEq] at h
    exact h.1.symm
  | cons head rest ih =>
    obtain ⟨s, e⟩ := head
    intro mem memF c addrs bf h
    have hdry := (scanRegion_dry (readMem mem s (e - s)) sb rb s ra mem).1
    have hstep :
        (match (processRegions
            (scanRegion (readMem mem s (e - s)) sb rb s ra true mem).1
            rest sb rb ra true bp).2 with
         | Except.error err => Except.error err
         | Except.ok (memF2, c2, addrs2, bf2) =>
           Except.ok (memF2,
             (scanRegion (readMem mem s (e - s)) sb rb s ra true mem).2.1 + c2,
             (scanRegion (readMem mem s (e - s)) sb rb s ra true mem).2.2.1 ++ addrs2,
             bf2.orElse (fun _ => backupFileOf bp s e)))
          = Except.ok (memF, c, addrs, bf) →
        memF = mem := by
      intro h2
      cases hrest : (processRegions
          (scanRegion (readMem mem s (e - s)) sb rb s ra true mem).1
          rest sb rb ra true bp).2 with
      | error err => rw [hrest] at h2; simp at h2
      | ok out =>
        obtain ⟨memF2, c2, addrs2, bf2⟩ := out
        rw [hrest] at h2
        simp only [Except.ok.injEq, Prod.mk.injEq] at h2
        have := ih _ memF2 c2 addrs2 bf2 hrest
        rw [← h2.1, this, hdry]
    cases bp with
    | none =>
      rw [processRegions_cons_none] at h
      exact hstep h
    | some pfx =>
      by_cases hsz : MAX_HEAP_SIZE < e - s
      · rw [processRegions_cons_big mem s e rest sb rb ra true pfx hsz] at h
        simp at h
      · rw [processRegions_cons_some mem s e rest sb rb ra true pfx hsz] at h
        exact hstep h

/-- Processing regions never raises the length-mismatch error: that check
happens before any region is processed. -/
theorem processRegions_not_lengthMismatch (ranges : List (Nat × Nat))
    (sb rb : List Nat) (ra dr : Bool) (bp : Option String) :
    ∀ (mem : List Nat),
    (processRegions mem ranges sb rb ra dr bp).2 ≠ Except.error Err.lengthMismatch := by
  induction ranges with
  | nil => intro mem h; simp [processRegions] at h
  | cons head rest ih =>
    obtain ⟨s, e⟩ := head
    intro mem h
    have hstep :
        (match (processRegions
            (scanRegion (readMem mem s (e - s)) sb rb s ra dr mem).1
            rest sb rb ra dr bp).2 with
         | Except.error err => Except.error err
         | Except.ok (memF2, c2, addrs2, bf2) =>
           Except.ok (memF2,
             (scanRegion (readMem mem s (e - s)) sb rb s ra dr mem).2.1 + c2,
             (scanRegion (readMem mem s (e - s)) sb rb s ra dr mem).2.2.1 ++ addrs2,
             bf2.orElse (fun _ => backupFileOf bp s e)))
          = Except.error Err.lengthMismatch → False := by
      intro h2
      cases hrest : (processRegions
          (scanRegion (readMem mem s (e - s)) sb rb s ra dr mem).1
          rest sb rb ra dr bp).2 with
      | error err =>
        rw [hrest] at h2
        simp only [Except.error.injEq] at h2
        subst h2
        exact ih _ hrest
      | ok out =>
        obtain ⟨memF2, c2, addrs2, bf2⟩ := out
        rw [hrest] at h2
        simp at h2
    cases bp with
    | none =>
      rw [processRegions_cons_none] at h
      exact hstep h
    | some pfx =>
      by_cases hsz : MAX_HEAP_SIZE < e - s
      · rw [processRegions_cons_big mem s e rest sb rb ra dr pfx hsz] at h
        simp at h
      · rw [processRegions_cons_some mem s e rest sb rb ra dr pfx hsz] at h
        exact hstep h

end ReadWriteHeap

namespace ReadWriteHeap

/-- With a nonempty pattern and regions listed in increasing disjoint
order (as in `/proc/<pid>/maps`), the recorded addresses are strictly
increasing, and every address lies inside one of the scanned regions. -/
theorem processRegions_sorted (ranges : List (Nat × Nat)) (sb rb : List Nat)
    (ra dr : Bool) (bp : Option String) (hne : sb ≠ []) :
    ∀ (mem memF : List Nat) (c : Nat) (addrs : List Nat) (bf : Option String),
    rangesOrdered ranges →
    (processRegions mem ranges sb rb ra dr bp).2 = Except.ok (memF, c, addrs, bf) →
    addrs.Pairwise (· < ·)
    ∧ ∀ x ∈ addrs, ∃ r, r ∈ ranges ∧ r.1 ≤ x ∧ x < r.2 := by
  have hsbpos : 0 < sb.length := List.length_pos_of_ne_nil hne
  induction ranges with
  | nil =>
    intro mem memF c addrs bf _ h
    simp only [processRegions, Except.ok.injEq, Prod.mk.injEq] at h
    obtain ⟨-, -, h3, -⟩ := h
    subst h3
    exact ⟨List.Pairwise.nil, by simp⟩
  | cons head rest ih =>
    obtain ⟨s, e⟩ := head
    intro mem memF c addrs bf hord h
    rw [rangesOrdered, List.pairwise_cons] at hord
    obtain ⟨hord1, hord2⟩ := hord
    have hblock : ∀ x ∈ (scanRegion (readMem mem s (e - s)) sb rb s ra dr mem).2.2.1,
        s ≤ x ∧ x < e := by
      intro x hx
      rw [(scanRegion_spec (readMem mem s (e - s)) sb rb s ra dr mem).2] at hx
      rw [List.mem_map] at hx
      obtain ⟨q, hq, rfl⟩ := hx
      have hocc := matchOffsetsAux_occurs (readMem mem s (e - s)) sb ra
        ((readMem mem s (e - s)).length + 1) 0 q hq
      have h1 := hocc.1
      have h2 := readMem_length_le mem s (e - s)
      constructor
      · omega
      · omega
    have hblocksorted :
        ((scanRegion (readMem mem s (e - s)) sb rb s ra dr mem).2.2.1).Pairwise
          (· < ·) := by
      rw [(scanRegion_spec (readMem mem s (e - s)) sb rb s ra dr mem).2]
      refine List.Pairwise.map _ ?_
        (matchOffsetsAux_sorted (readMem mem s (e - s)) sb ra
          ((readMem mem s (e - s)).length + 1) 0)
      intro a b hab
      omega
    have hstep :
        (match (processRegions
            (scanRegion (readMem mem s (e - s)) sb rb s ra dr mem).1
            rest sb rb ra dr bp).2 with
         | Except.error err => Except.error err
         | Except.ok (memF2, c2, addrs2, bf2) =>
           Except.ok (memF2,
             (scanRegion (readMem mem s (e - s)) sb rb s ra dr mem).2.1 + c2,
             (scanRegion (readMem mem s (e - s)) sb rb s ra dr mem).2.2.1 ++ addrs2,
             bf2.orElse (fun _ => backupFileOf bp s e)))
          = Except.ok (memF, c, addrs, bf) →
        addrs.Pairwise (· < ·)
        ∧ ∀ x ∈ addrs, ∃ r, r ∈ (s, e) :: rest ∧ r.1 ≤ x ∧ x < r.2 := by
      intro h2
      cases hrest : (processRegions
          (scanRegion (readMem mem s (e - s)) sb rb s ra dr mem).1
          rest sb rb ra dr bp).2 with
      | error err => rw [hrest] at h2; simp at h2
      | ok out =>
        obtain ⟨memF2, c2, addrs2, bf2⟩ := out
        rw [hrest] at h2
        simp only [Except.ok.injEq, Prod.mk.injEq] at h2
        obtain ⟨-, -, h3, -⟩ := h2
        obtain ⟨ihsorted, ihbounds⟩ := ih _ memF2 c2 addrs2 bf2 hord2 hrest
        subst h3
        constructor
        · rw [List.pairwise_append]
          refine ⟨hblocksorted, ihsorted, ?_⟩
          intro a ha b hb
          obtain ⟨r2, hr2, hr2le, -⟩ := ihbounds b hb
          have hae := (hblock a ha).2
          have := hord1 r2 hr2
          omega
        · intro x hx
          rw [List.mem_append] at hx
          rcases hx with hx | hx
          · exact ⟨(s, e), List.mem_cons_self _ _, (hblock x hx).1, (hblock x hx).2⟩
          · obtain ⟨r2, hr2, hb1, hb2⟩ := ihbounds x hx
            exact ⟨r2, List.mem_cons_of_mem _ hr2, hb1, hb2⟩
    cases bp with
    | none =>
      rw [processRegions_cons_none] at h
      exact hstep h
    | some pfx =>
      by_cases hsz : MAX_HEAP_SIZE < e - s
      · rw [processRegions_cons_big mem s e rest sb rb ra dr pfx hsz] at h
        simp at h
      · rw [processRegions_cons_some mem s e rest sb rb ra dr pfx hsz] at h
        exact hstep h

end ReadWriteHeap

namespace ReadWriteHeap

/-- The scan loop writes no backup files. -/
theorem backupNames_scan (hd sb rb : List Nat) (s : Nat) (ra dr : Bool)
    (hrb : rb.length ≤ sb.length) (mem : List Nat) :
    backupNames (scanRegion hd sb rb s ra dr mem).2.2.2 = [] := by
  rw [backupNames, List.filterMap_eq_nil_iff]
  intro ev hev
  obtain ⟨a, bs, rfl, -, -⟩ := scanRegion_events hd sb rb s ra dr hrb mem ev hev
  rfl

/-- With a backup request, each processed region writes exactly one
backup file named after it (in region order), and the recorded
backup_file is the one of the last region: each region overwrites the
previous value. -/
theorem processRegions_backups (ranges : List (Nat × Nat)) (sb rb : List Nat)
    (ra dr : Bool) (pfx : String) (hrb : rb.length ≤ sb.length) :
    ∀ (mem memF : List Nat) (c : Nat) (addrs : List Nat) (bf : Option String),
    (processRegions mem ranges sb rb ra dr (some pfx)).2
      = Except.ok (memF, c, addrs, bf) →
    backupNames (processRegions mem ranges sb rb ra dr (some pfx)).1
      = ranges.map (fun r => backupName pfx r.1 r.2)
    ∧ bf = (ranges.getLast?).map (fun r => backupName pfx r.1 r.2) := by
  induction ranges with
  | nil =>
    intro mem memF c addrs bf h
    simp only [processRegions, Except.ok.injEq, Prod.mk.injEq] at h
    obtain ⟨-, -, -, h4⟩ := h
    subst h4
    exact ⟨rfl, rfl⟩
  | cons head rest ih =>
    obtain ⟨s, e⟩ := head
    intro mem memF c addrs bf h
    by_cases hsz : MAX_HEAP_SIZE < e - s
    · rw [processRegions_cons_big mem s e rest sb rb ra dr pfx hsz] at h
      simp at h
    · rw [processRegions_cons_some mem s e rest sb rb ra dr pfx hsz] at h ⊢
      cases hrest : (processRegions
          (scanRegion (readMem mem s (e - s)) sb rb s ra dr mem).1
          rest sb rb ra dr (some pfx)).2 with
      | error err => rw [hrest] at h; simp at h
      | ok out =>
        obtain ⟨memF2, c2, addrs2, bf2⟩ := out
        rw [hrest] at h
        simp only [Except.ok.injEq, Prod.mk.injEq] at h
        obtain ⟨-, -, -, h4⟩ := h
        obtain ⟨ihnames, ihbf⟩ := ih _ memF2 c2 addrs2 bf2 hrest
        constructor
        · have hscan0 := backupNames_scan (readMem mem s (e - s)) sb rb s ra dr hrb mem
          simp only [backupNames] at ihnames hscan0 ⊢
          simp [List.filterMap_append, List.filterMap_cons, hscan0, ihnames]
        · rw [← h4]
          cases rest with
          | nil =>
            simp only [processRegions, Except.ok.injEq, Prod.mk.injEq] at hrest
            obtain ⟨-, -, -, hbf2⟩ := hrest
            subst hbf2
            simp [Option.orElse]
          | cons r2 rest2 =>
            rw [List.getLast?_cons_cons]
            rw [ihbf]
            have hne2 : (r2 :: rest2).getLast?.isSome = true := by
              cases h2 : (r2 :: rest2).getLast? with
              | none => simp [List.getLast?] at h2
              | some v => rfl
            cases h2 : (r2 :: rest2).getLast? with
            | none => rw [h2] at hne2; simp at hne2
            | some v => simp [Option.orElse]

end ReadWriteHeap

namespace ReadWriteHeap

/-- With a backup request, an oversized region makes the whole run fail
with the region-too-large error, and (with disjoint regions) no event of
the run touches the oversized region: earlier regions only access their
own addresses and the oversized region is rejected before its first
read. -/
theorem processRegions_oversized (ranges : List (Nat × Nat)) (sb rb : List Nat)
    (ra dr : Bool) (pfx : String) (hrb : rb.length ≤ sb.length) :
    ∀ (mem : List Nat) (s e : Nat),
    rangesDisjoint ranges → (s, e) ∈ ranges → MAX_HEAP_SIZE < e - s →
    (processRegions mem ranges sb rb ra dr (some pfx)).2
        = Except.error Err.regionTooLarge
    ∧ ∀ ev ∈ (processRegions mem ranges sb rb ra dr (some pfx)).1,
        touchesB ev s e = false := by
  induction ranges with
  | nil => intro mem s e _ hmem _; simp at hmem
  | cons head rest ih =>
    obtain ⟨s1, e1⟩ := head
    intro mem s e hdisj hmem hsz
    rw [rangesDisjoint, List.pairwise_cons] at hdisj
    obtain ⟨hdisj1, hdisj2⟩ := hdisj
    by_cases hsz1 : MAX_HEAP_SIZE < e1 - s1
    · rw [processRegions_cons_big mem s1 e1 rest sb rb ra dr pfx hsz1]
      exact ⟨rfl, by simp⟩
    · have hmem2 : (s, e) ∈ rest := by
        rcases List.mem_cons.mp hmem with heq | h2
        · rw [Prod.mk.injEq] at heq
          omega
        · exact h2
      have hdisjse : e1 ≤ s ∨ e ≤ s1 := hdisj1 (s, e) hmem2
      have hhdlen : (readMem mem s1 (e1 - s1)).length ≤ e1 - s1 :=
        readMem_length_le mem s1 (e1 - s1)
      obtain ⟨iherr, ihtouch⟩ :=
        ih (scanRegion (readMem mem s1 (e1 - s1)) sb rb s1 ra dr mem).1 s e
          hdisj2 hmem2 hsz
      rw [processRegions_cons_some mem s1 e1 rest sb rb ra dr pfx hsz1]
      constructor
      · simp only [iherr]
      · intro ev hev
        simp only [List.mem_cons, List.mem_append] at hev
        rcases hev with (rfl | rfl | rfl | hev) | hev
        · simp only [touchesB, decide_eq_false_iff_not]
          omega
        · rfl
        · simp only [touchesB, decide_eq_false_iff_not]
          omega
        · obtain ⟨a, bs, rfl, ha1, ha2⟩ :=
            scanRegion_events (readMem mem s1 (e1 - s1)) sb rb s1 ra dr hrb mem
              ev hev
          simp only [touchesB, decide_eq_false_iff_not]
          omega
        · exact ihtouch ev hev

end ReadWriteHeap

namespace ReadWriteHeap

/-- The reported count and addresses do not depend on the dry-run flag:
with disjoint regions, a dry run and a destructive run started from
memories that agree on every region report identical counts, identical
addresses, and identical error outcomes. -/
theorem processRegions_proj (ranges : List (Nat × Nat)) (sb rb : List Nat)
    (ra : Bool) (bp : Option String) (hrb : rb.length ≤ sb.length) :
    ∀ (mem1 mem2 : List Nat) (dr1 dr2 : Bool),
    rangesDisjoint ranges →
    mem1.length = mem2.length →
    (∀ s e, (s, e) ∈ ranges → readMem mem1 s (e - s) = readMem mem2 s (e - s)) →
    Except.map (fun x => (x.2.1, x.2.2.1))
        (processRegions mem1 ranges sb rb ra dr1 bp).2
      = Except.map (fun x => (x.2.1, x.2.2.1))
          (processRegions mem2 ranges sb rb ra dr2 bp).2 := by
  induction ranges with
  | nil => intro mem1 mem2 dr1 dr2 _ _ _; rfl
  | cons head rest ih =>
    obtain ⟨s, e⟩ := head
    intro mem1 mem2 dr1 dr2 hdisj hlen hagree
    rw [rangesDisjoint, List.pairwise_cons] at hdisj
    obtain ⟨hdisj1, hdisj2⟩ := hdisj
    have hhd : readMem mem1 s (e - s) = readMem mem2 s (e - s) :=
      hagree s e (List.mem_cons_self _ _)
    have hagree2 : ∀ s2 e2, (s2, e2) ∈ rest →
        readMem (scanRegion (readMem mem1 s (e - s)) sb rb s ra dr1 mem1).1
            s2 (e2 - s2)
          = readMem (scanRegion (readMem mem2 s (e - s)) sb rb s ra dr2 mem2).1
              s2 (e2 - s2) := by
      intro s2 e2 hm
      have hd12 := hdisj1 (s2, e2) hm
      by_cases hdeg : e2 ≤ s2
      · have h0 : e2 - s2 = 0 := by omega
        rw [h0]
        simp [readMem]
      · have hcase : e ≤ s2 ∨ s2 + (e2 - s2) ≤ s := by
          simp only at hd12
          omega
        rw [scanRegion_readMem_other (readMem mem1 s (e - s)) sb rb ra dr1 hrb
          mem1 s e s2 (e2 - s2) (readMem_length_le mem1 s (e - s)) hcase]
        rw [scanRegion_readMem_other (readMem mem2 s (e - s)) sb rb ra dr2 hrb
          mem2 s e s2 (e2 - s2) (readMem_length_le mem2 s (e - s)) hcase]
        exact hagree s2 e2 (List.mem_cons_of_mem _ hm)
    have hlen2 :
        (scanRegion (readMem mem1 s (e - s)) sb rb s ra dr1 mem1).1.length
          = (scanRegion (readMem mem2 s (e - s)) sb rb s ra dr2 mem2).1.length := by
      rw [scanRegion_length, scanRegion_length, hlen]
    have hres := ih (scanRegion (readMem mem1 s (e - s)) sb rb s ra dr1 mem1).1
      (scanRegion (readMem mem2 s (e - s)) sb rb s ra dr2 mem2).1 dr1 dr2
      hdisj2 hlen2 hagree2
    have hc : (scanRegion (readMem mem1 s (e - s)) sb rb s ra dr1 mem1).2.1
        = (scanRegion (readMem mem2 s (e - s)) sb rb s ra dr2 mem2).2.1 := by
      rw [(scanRegion_spec (readMem mem1 s (e - s)) sb rb s ra dr1 mem1).1,
        (scanRegion_spec (readMem mem2 s (e - s)) sb rb s ra dr2 mem2).1, hhd]
    have ha : (scanRegion (readMem mem1 s (e - s)) sb rb s ra dr1 mem1).2.2.1
        = (scanRegion (readMem mem2 s (e - s)) sb rb s ra dr2 mem2).2.2.1 := by
      rw [(scanRegion_spec (readMem mem1 s (e - s)) sb rb s ra dr1 mem1).2,
        (scanRegion_spec (readMem mem2 s (e - s)) sb rb s ra dr2 mem2).2, hhd]
    have hcombine :
        ∀ (bfo : Option String),
        Except.map (fun x => (x.2.1, x.2.2.1))
            (match (processRegions
                (scanRegion (readMem mem1 s (e - s)) sb rb s ra dr1 mem1).1
                rest sb rb ra dr1 bp).2 with
             | Except.error err => Except.error err
             | Except.ok (memF2, c2, addrs2, bf2) =>
               Except.ok (memF2,
                 (scanRegion (readMem mem1 s (e - s)) sb rb s ra dr1 mem1).2.1 + c2,
                 (scanRegion (readMem mem1 s (e - s)) sb rb s ra dr1 mem1).2.2.1
                   ++ addrs2,
                 bf2.orElse (fun _ => bfo)))
          = Except.map (fun x => (x.2.1, x.2.2.1))
              (match (processRegions
                  (scanRegion (readMem mem2 s (e - s)) sb rb s ra dr2 mem2).1
                  rest sb rb ra dr2 bp).2 with
               | Except.error err => Except.error err
               | Except.ok (memF2, c2, addrs2, bf2) =>
                 Except.ok (memF2,
                   (scanRegion (readMem mem2 s (e - s)) sb rb s ra dr2 mem2).2.1 + c2,
                   (scanRegion (readMem mem2 s (e - s)) sb rb s ra dr2 mem2).2.2.1
                     ++ addrs2,
                   bf2.orElse (fun _ => bfo))) := by
      intro bfo
      cases hrest1 : (processRegions
          (scanRegion (readMem mem1 s (e - s)) sb rb s ra dr1 mem1).1
          rest sb rb ra dr1 bp).2 with
      | error err1 =>
        cases hrest2 : (processRegions
            (scanRegion (readMem mem2 s (e - s)) sb rb s ra dr2 mem2).1
            rest sb rb ra dr2 bp).2 with
        | error err2 =>
          rw [hrest1, hrest2] at hres
          simp only [Except.map, Except.error.injEq] at hres
          subst hres
          rfl
        | ok out2 =>
          rw [hrest1, hrest2] at hres
          simp [Except.map] at hres
      | ok out1 =>
        cases hrest2 : (processRegions
            (scanRegion (readMem mem2 s (e - s)) sb rb s ra dr2 mem2).1
            rest sb rb ra dr2 bp).2 with
        | error err2 =>
          rw [hrest1, hrest2] at hres
          simp [Except.map] at hres
        | ok out2 =>
          obtain ⟨memF1, c1, addrs1, bf1⟩ := out1
          obtain ⟨memF2, c2, addrs2, bf2⟩ := out2
          rw [hrest1, hrest2] at hres
          simp only [Except.map, Except.ok.injEq, Prod.mk.injEq] at hres
          obtain ⟨hce, hae⟩ := hres
          simp only [Except.map, Except.ok.injEq, Prod.mk.injEq]
          rw [hc, ha, hce, hae]
          exact ⟨rfl, rfl⟩
    cases bp with
    | none =>
      rw [processRegions_cons_none, processRegions_cons_none]
      exact hcombine none
    | some pfx =>
      by_cases hsz : MAX_HEAP_SIZE < e - s
      · rw [processRegions_cons_big mem1 s e rest sb rb ra dr1 pfx hsz,
          processRegions_cons_big mem2 s e rest sb rb ra dr2 pfx hsz]
      · rw [processRegions_cons_some mem1 s e rest sb rb ra dr1 pfx hsz,
          processRegions_cons_some mem2 s e rest sb rb ra dr2 pfx hsz]
        exact hcombine (some (backupName pfx s e))

end ReadWriteHeap

namespace ReadWriteHeap

/-- Everything a `takeWhile (· ≠ bw)` keeps out of `pre ++ bw :: post`
comes from `pre`: the scan stops at the first `bw`. -/
theorem takeWhile_ne_subset {α : Type} [DecidableEq α] (bw : α) :
    ∀ (pre post : List α) (x : α),
    x ∈ (pre ++ bw :: post).takeWhile (fun y => decide (y ≠ bw)) → x ∈ pre := by
  intro pre
  induction pre with
  | nil =>
    intro post x hx
    rw [List.nil_append, List.takeWhile_cons] at hx
    simp at hx
  | cons a pre ih =>
    intro post x hx
    rw [List.cons_append, List.takeWhile_cons] at hx
    by_cases hax : a = bw
    · rw [if_neg (by simp [hax])] at hx
      simp at hx
    · rw [if_pos (by simp [hax])] at hx
      rcases List.mem_cons.mp hx with rfl | hx2
      · exact List.mem_cons_self _ _
      · exact List.mem_cons_of_mem _ (ih post x hx2)

/-- With disjoint regions, the trace of a successful backing-up run
decomposes, for each region, into a prefix with no write into that
region, followed by the backup of that region holding the region's
original bytes (`mem0` is the memory the whole run started from). -/
theorem processRegions_backup_split (ranges : List (Nat × Nat))
    (sb rb : List Nat) (ra dr : Bool) (pfx : String)
    (hrb : rb.length ≤ sb.length) :
    ∀ (mem mem0 : List Nat) (s e : Nat)
      (out : List Nat × Nat × List Nat × Option String),
    rangesDisjoint ranges →
    (∀ s2 e2, (s2, e2) ∈ ranges →
      readMem mem s2 (e2 - s2) = readMem mem0 s2 (e2 - s2)) →
    (s, e) ∈ ranges →
    (processRegions mem ranges sb rb ra dr (some pfx)).2 = Except.ok out →
    ∃ pre post,
      (processRegions mem ranges sb rb ra dr (some pfx)).1
        = pre ++ Event.backupWrite (backupName pfx s e) (readMem mem0 s (e - s))
            :: post
      ∧ ∀ ev ∈ pre, writesIntoB ev s e = false := by
  induction ranges with
  | nil => intro mem mem0 s e out _ _ hmem _; simp at hmem
  | cons head rest ih =>
    obtain ⟨s1, e1⟩ := head
    intro mem mem0 s e out hdisj hagree hmem h
    rw [rangesDisjoint, List.pairwise_cons] at hdisj
    obtain ⟨hdisj1, hdisj2⟩ := hdisj
    by_cases hsz : MAX_HEAP_SIZE < e1 - s1
    · rw [processRegions_cons_big mem s1 e1 rest sb rb ra dr pfx hsz] at h
      simp at h
    · rw [processRegions_cons_some mem s1 e1 rest sb rb ra dr pfx hsz] at h ⊢
      have hhdlen : (readMem mem s1 (e1 - s1)).length ≤ e1 - s1 :=
        readMem_length_le mem s1 (e1 - s1)
      rcases List.mem_cons.mp hmem with heq | hmem2
      · -- the region is the first one: its backup is the second event
        rw [Prod.mk.injEq] at heq
        obtain ⟨rfl, rfl⟩ := heq
        refine ⟨[Event.memRead s (e - s)],
          Event.memRead s (e - s)
            :: (scanRegion (readMem mem s (e - s)) sb rb s ra dr mem).2.2.2
            ++ (processRegions
                  (scanRegion (readMem mem s (e - s)) sb rb s ra dr mem).1
                  rest sb rb ra dr (some pfx)).1, ?_, ?_⟩
        · rw [hagree s e (List.mem_cons_self _ _)]
          simp
        · intro ev hev
          rcases List.mem_singleton.mp hev with rfl
          rfl
      · -- the region comes later
        have hdisjse : e1 ≤ s ∨ e ≤ s1 := hdisj1 (s, e) hmem2
        cases hrest : (processRegions
            (scanRegion (readMem mem s1 (e1 - s1)) sb rb s1 ra dr mem).1
            rest sb rb ra dr (some pfx)).2 with
        | error err => rw [hrest] at h; simp at h
        | ok out2 =>
          have hagree2 : ∀ s2 e2, (s2, e2) ∈ rest →
              readMem (scanRegion (readMem mem s1 (e1 - s1)) sb rb s1 ra dr mem).1
                  s2 (e2 - s2)
                = readMem mem0 s2 (e2 - s2) := by
            intro s2 e2 hm
            have hd12 := hdisj1 (s2, e2) hm
            by_cases hdeg : e2 ≤ s2
            · have h0 : e2 - s2 = 0 := by omega
              rw [h0]
              simp [readMem]
            · have hcase : e1 ≤ s2 ∨ s2 + (e2 - s2) ≤ s1 := by
                simp only at hd12
                omega
              rw [scanRegion_readMem_other (readMem mem s1 (e1 - s1)) sb rb ra dr
                hrb mem s1 e1 s2 (e2 - s2) hhdlen hcase]
              exact hagree s2 e2 (List.mem_cons_of_mem _ hm)
          obtain ⟨pre2, post2, hsplit, hclean⟩ :=
            ih (scanRegion (readMem mem s1 (e1 - s1)) sb rb s1 ra dr mem).1 mem0
              s e out2 hdisj2 hagree2 hmem2 hrest
          refine ⟨Event.memRead s1 (e1 - s1)
              :: Event.backupWrite (backupName pfx s1 e1)
                  (readMem mem s1 (e1 - s1))
              :: Event.memRead s1 (e1 - s1)
              :: (scanRegion (readMem mem s1 (e1 - s1)) sb rb s1 ra dr mem).2.2.2
              ++ pre2,
            post2, ?_, ?_⟩
          · rw [hsplit]
            simp
          · intro ev hev
            simp only [List.mem_cons, List.mem_append] at hev
            rcases hev with (rfl | rfl | rfl | hev) | hev
            · simp only [writesIntoB]
            · simp only [writesIntoB]
            · simp only [writesIntoB]
            · obtain ⟨a, bs, rfl, ha1, ha2⟩ :=
                scanRegion_events (readMem mem s1 (e1 - s1)) sb rb s1 ra dr hrb
                  mem ev hev
              simp only [writesIntoB, decide_eq_false_iff_not]
              omega
            · exact hclean ev hev

end ReadWriteHeap

namespace ReadWriteHeap

/-- Destructuring a successful `find_and_replace`: the length check
passed, the regions run succeeded with the reported result, and the
trace is the trace of the regions run. -/
theorem find_and_replace_ok (st : SysState) (sb rb : List Nat) (ra dr : Bool)
    (bp : Option String) (res : ReplacementResult) (memF : List Nat)
    (h : (find_and_replace st sb rb ra dr bp).2 = Except.ok (res, memF)) :
    rb.length ≤ sb.length
    ∧ (processRegions st.mem (heapRangesOf st.mapsLines) sb rb ra dr bp).2
        = Except.ok (memF, res.count, res.addresses, res.backup_file)
    ∧ (find_and_replace st sb rb ra dr bp).1
        = (processRegions st.mem (heapRangesOf st.mapsLines) sb rb ra dr bp).1 := by
  by_cases hlen : rb.length > sb.length
  · simp only [find_and_replace, if_pos hlen] at h
    simp at h
  · by_cases hemp : (heapRangesOf st.mapsLines).isEmpty = true
    · simp only [find_and_replace, if_neg hlen, locateHeapRegions,
        if_pos hemp] at h
      simp at h
    · simp only [find_and_replace, if_neg hlen, locateHeapRegions,
        if_neg hemp] at h
      cases hrest : (processRegions st.mem (heapRangesOf st.mapsLines)
          sb rb ra dr bp).2 with
      | error err => rw [hrest] at h; simp at h
      | ok out =>
        obtain ⟨m, c, addrs, bf⟩ := out
        rw [hrest] at h
        simp only [Except.ok.injEq, Prod.mk.injEq] at h
        obtain ⟨hres, hm⟩ := h
        subst hm
        subst hres
        refine ⟨Nat.le_of_not_lt hlen, by simp [hrest], ?_⟩
        simp only [find_and_replace, if_neg hlen, locateHeapRegions, if_neg hemp]

/-- With `replace_all = false` each region records at most one match, so
the total count is bounded by the number of regions. -/
theorem processRegions_count_le (ranges : List (Nat × Nat)) (sb rb : List Nat)
    (dr : Bool) (bp : Option String) :
    ∀ (mem memF : List Nat) (c : Nat) (addrs : List Nat) (bf : Option String),
    (processRegions mem ranges sb rb false dr bp).2 = Except.ok (memF, c, addrs, bf) →
    c ≤ ranges.length := by
  induction ranges with
  | nil =>
    intro mem memF c addrs bf h
    simp only [processRegions, Except.ok.injEq, Prod.mk.injEq] at h
    omega
  | cons head rest ih =>
    obtain ⟨s, e⟩ := head
    intro mem memF c addrs bf h
    have hsingle : (matchOffsets (readMem mem s (e - s)) sb false).length ≤ 1 :=
      matchOffsetsAux_single (readMem mem s (e - s)) sb
        ((readMem mem s (e - s)).length + 1) 0
    have hscan := (scanRegion_spec (readMem mem s (e - s)) sb rb s false dr mem).1
    have hstep :
        (match (processRegions
            (scanRegion (readMem mem s (e - s)) sb rb s false dr mem).1
            rest sb rb false dr bp).2 with
         | Except.error err => Except.error err
         | Except.ok (memF2, c2, addrs2, bf2) =>
           Except.ok (memF2,
             (scanRegion (readMem mem s (e - s)) sb rb s false dr mem).2.1 + c2,
             (scanRegion (readMem mem s (e - s)) sb rb s false dr mem).2.2.1
               ++ addrs2,
             bf2.orElse (fun _ => backupFileOf bp s e)))
          = Except.ok (memF, c, addrs, bf) →
        c ≤ ((s, e) :: rest).length := by
      intro h2
      cases hrest : (processRegions
          (scanRegion (readMem mem s (e - s)) sb rb s false dr mem).1
          rest sb rb false dr bp).2 with
      | error err => rw [hrest] at h2; simp at h2
      | ok out =>
        obtain ⟨memF2, c2, addrs2, bf2⟩ := out
        rw [hrest] at h2
        simp only [Except.ok.injEq, Prod.mk.injEq] at h2
        obtain ⟨-, h2c, -, -⟩ := h2
        have hc2 := ih _ memF2 c2 addrs2 bf2 hrest
        rw [List.length_cons]
        rw [hscan] at h2c
        omega
    cases bp with
    | none =>
      rw [processRegions_cons_none] at h
      exact hstep h
    | some pfx =>
      by_cases hsz : MAX_HEAP_SIZE < e - s
      · rw [processRegions_cons_big mem s e rest sb rb false dr pfx hsz] at h
        simp at h
      · rw [processRegions_cons_some mem s e rest sb rb false dr pfx hsz] at h
        exact hstep h

end ReadWriteHeap

namespace ReadWriteHeap

/-- C1: the claim "with replace_all=false the returned result has
match_count at most 1 and no region after the first matching region
contributes a match" is false on the code: with two heap regions that
both contain the pattern, the inner `break` only stops the scan of the
current region, the outer loop still scans the next region, and the run
reports two matches (one per region). -/
theorem claim1_counterexample :
    (find_and_replace stTwoRegions [1] [9] false false none).2
      = Except.ok ({ count := 2, addresses := [0, 2], backup_file := none },
          [9, 0, 9, 0])
    ∧ ¬ (2 ≤ 1) := by
  constructor
  · decide
  · decide

/-- C1 (amended): with replace_all=false the scan of each region stops
after that region's first match, so every successful run reports at most
one match per heap region: match_count is bounded by the number of heap
regions, not by 1. -/
theorem claim1_amended (st : SysState) (sb rb : List Nat) (dr : Bool)
    (bp : Option String) (res : ReplacementResult) (memF : List Nat)
    (h : (find_and_replace st sb rb false dr bp).2 = Except.ok (res, memF)) :
    res.count ≤ (heapRangesOf st.mapsLines).length := by
  obtain ⟨-, hpr, -⟩ := find_and_replace_ok st sb rb false dr bp res memF h
  exact processRegions_count_le (heapRangesOf st.mapsLines) sb rb dr bp
    st.mem memF res.count res.addresses res.backup_file hpr

theorem claim1_witness :
    ((find_and_replace stTwoRegions [1] [9] false false none).2
      = Except.ok ({ count := 2, addresses := [0, 2], backup_file := none },
          [9, 0, 9, 0]))
    ∧ ({ count := 2, addresses := [0, 2],
          backup_file := none } : ReplacementResult).count
        ≤ (heapRangesOf stTwoRegions.mapsLines).length :=
  ⟨by decide,
   claim1_amended stTwoRegions [1] [9] false none
     { count := 2, addresses := [0, 2], backup_file := none } [9, 0, 9, 0]
     (by decide)⟩

/-- C2: with replace_all=true the scan advances by one byte after each
match, so the recorded offsets are exactly the occurrences of the
pattern in the snapshot (overlapping ones included), the per-region
addresses are those offsets shifted by the region start, and scanning
the buffer "aaaa" for "aa" through `find_and_replace` reports exactly 3
matches at offsets 0, 1, 2. -/
theorem claim2 (hd sb rb : List Nat) (startAddr q : Nat) (dr : Bool)
    (mem : List Nat) (_hne : sb ≠ []) :
    (q ∈ matchOffsets hd sb true ↔ occursAt hd sb q)
    ∧ (scanRegion hd sb rb startAddr true dr mem).2.2.1
        = (matchOffsets hd sb true).map (fun x => startAddr + x)
    ∧ (find_and_replace stOverlap [97, 97] [98, 98] true false none).2
        = Except.ok ({ count := 3, addresses := [0, 1, 2], backup_file := none },
            [98, 98, 98, 98]) := by
  refine ⟨?_, (scanRegion_spec hd sb rb startAddr true dr mem).2, by decide⟩
  rw [matchOffsets]
  rw [matchOffsetsAux_mem hd sb (hd.length + 1) 0 q (by omega)]
  constructor
  · intro hx
    exact hx.2
  · intro hx
    exact ⟨Nat.zero_le q, hx⟩

theorem claim2_witness :
    (([97, 97] : List Nat) ≠ [])
    ∧ ((1 ∈ matchOffsets [97, 97, 97, 97] [97, 97] true
          ↔ occursAt [97, 97, 97, 97] [97, 97] 1)
      ∧ (scanRegion [97, 97, 97, 97] [97, 97] [98, 98] 0 true false
            [97, 97, 97, 97]).2.2.1
          = (matchOffsets [97, 97, 97, 97] [97, 97] true).map (fun x => 0 + x)
      ∧ (find_and_replace stOverlap [97, 97] [98, 98] true false none).2
          = Except.ok
              ({ count := 3, addresses := [0, 1, 2], backup_file := none },
                [98, 98, 98, 98])) :=
  ⟨by decide,
   claim2 [97, 97, 97, 97] [97, 97] [98, 98] 0 1 false [97, 97, 97, 97]
     (by decide)⟩

/-- C3: for a match written with dry_run=false and a replacement shorter
than the search pattern, the write burst leaves exactly the replacement
followed by `len(search) - len(replace)` zero bytes in the match window,
and the memory before and after the `len(search)`-byte window is
untouched. -/
theorem claim3 (mem : List Nat) (abs_pos : Nat)
    (search_bytes replace_bytes : List Nat)
    (h1 : replace_bytes.length < search_bytes.length)
    (h2 : abs_pos + search_bytes.length ≤ mem.length) :
    readMem ((performWrite mem abs_pos search_bytes replace_bytes).1) abs_pos
        search_bytes.length
      = replace_bytes
          ++ List.replicate (search_bytes.length - replace_bytes.length) 0
    ∧ ((performWrite mem abs_pos search_bytes replace_bytes).1).take abs_pos
        = mem.take abs_pos
    ∧ ((performWrite mem abs_pos search_bytes replace_bytes).1).drop
          (abs_pos + search_bytes.length)
        = mem.drop (abs_pos + search_bytes.length) := by
  have hwlen : (replace_bytes
      ++ List.replicate (search_bytes.length - replace_bytes.length) 0).length
      = search_bytes.length := by
    rw [List.length_append, List.length_replicate]
    omega
  refine ⟨?_, ?_, ?_⟩
  · rw [performWrite_mem_eq]
    have := readMem_writeBytes mem abs_pos
      (replace_bytes
        ++ List.replicate (search_bytes.length - replace_bytes.length) 0)
      (by rw [hwlen]; exact h2)
    rw [hwlen] at this
    exact this
  · rw [performWrite_mem_eq]
    apply take_congr
    intro i hi
    apply writeBytes_getElem_outside
    left
    exact hi
  · rw [performWrite_mem_eq]
    apply drop_congr
    intro i hi
    apply writeBytes_getElem_outside
    right
    rw [hwlen]
    exact hi

theorem claim3_witness :
    (([9] : List Nat).length < ([7, 7] : List Nat).length
      ∧ 1 + ([7, 7] : List Nat).length ≤ ([5, 5, 5, 5] : List Nat).length)
    ∧ (readMem ((performWrite [5, 5, 5, 5] 1 [7, 7] [9]).1) 1
          ([7, 7] : List Nat).length
        = [9] ++ List.replicate (([7, 7] : List Nat).length
            - ([9] : List Nat).length) 0
      ∧ ((performWrite [5, 5, 5, 5] 1 [7, 7] [9]).1).take 1
          = ([5, 5, 5, 5] : List Nat).take 1
      ∧ ((performWrite [5, 5, 5, 5] 1 [7, 7] [9]).1).drop
            (1 + ([7, 7] : List Nat).length)
          = ([5, 5, 5, 5] : List Nat).drop (1 + ([7, 7] : List Nat).length)) :=
  ⟨⟨by decide, by decide⟩,
   claim3 [5, 5, 5, 5] 1 [7, 7] [9] (by decide) (by decide)⟩

end ReadWriteHeap

namespace ReadWriteHeap

/-- C4: with disjoint heap regions (as in a real maps file), a dry run
returns exactly the count and addresses of the destructive run started
from the same initial memory, and leaves the memory unchanged: the two
runs have identical outcomes up to the suppressed writes. -/
theorem claim4 (st : SysState) (sb rb : List Nat) (ra : Bool)
    (bp : Option String)
    (hdisj : rangesDisjoint (heapRangesOf st.mapsLines)) :
    Except.map (fun x => (x.1.count, x.1.addresses, x.2))
        (find_and_replace st sb rb ra true bp).2
      = Except.map (fun x => (x.1.count, x.1.addresses, st.mem))
          (find_and_replace st sb rb ra false bp).2 := by
  by_cases hlen : rb.length > sb.length
  · simp only [find_and_replace, if_pos hlen]
    rfl
  · by_cases hemp : (heapRangesOf st.mapsLines).isEmpty = true
    · simp only [find_and_replace, if_neg hlen, locateHeapRegions, if_pos hemp]
      rfl
    · simp only [find_and_replace, if_neg hlen, locateHeapRegions, if_neg hemp]
      have hproj := processRegions_proj (heapRangesOf st.mapsLines) sb rb ra bp
        (Nat.le_of_not_lt hlen) st.mem st.mem true false hdisj rfl
        (fun _ _ _ => rfl)
      cases hrest1 : (processRegions st.mem (heapRangesOf st.mapsLines)
          sb rb ra true bp).2 with
      | error err1 =>
        cases hrest2 : (processRegions st.mem (heapRangesOf st.mapsLines)
            sb rb ra false bp).2 with
        | error err2 =>
          rw [hrest1, hrest2] at hproj
          simp only [Except.map, Except.error.injEq] at hproj
          subst hproj
          rfl
        | ok out2 =>
          rw [hrest1, hrest2] at hproj
          simp [Except.map] at hproj
      | ok out1 =>
        cases hrest2 : (processRegions st.mem (heapRangesOf st.mapsLines)
            sb rb ra false bp).2 with
        | error err2 =>
          rw [hrest1, hrest2] at hproj
          simp [Except.map] at hproj
        | ok out2 =>
          obtain ⟨m1, c1, a1, bf1⟩ := out1
          obtain ⟨m2, c2, a2, bf2⟩ := out2
          rw [hrest1, hrest2] at hproj
          simp only [Except.map, Except.ok.injEq, Prod.mk.injEq] at hproj
          obtain ⟨hc, ha⟩ := hproj
          have hm1 : m1 = st.mem := processRegions_dry_mem
            (heapRangesOf st.mapsLines) sb rb ra bp st.mem m1 c1 a1 bf1 hrest1
          simp only [Except.map, Except.ok.injEq, Prod.mk.injEq]
          exact ⟨hc, ha, hm1⟩

theorem claim4_witness :
    rangesDisjoint (heapRangesOf stTwoRegions.mapsLines)
    ∧ Except.map (fun x => (x.1.count, x.1.addresses, x.2))
          (find_and_replace stTwoRegions [1] [9] true true none).2
        = Except.map (fun x => (x.1.count, x.1.addresses, stTwoRegions.mem))
            (find_and_replace stTwoRegions [1] [9] true false none).2 :=
  ⟨by decide, claim4 stTwoRegions [1] [9] true none (by decide)⟩

/-- C5: with disjoint heap regions, in every successful run with a
backup request the trace contains, for each heap region, the write of
that region's backup holding the region's original bytes (the bytes as
they are just before the first write into that region), and no write
into that region happens before that backup is written. -/
theorem claim5 (st : SysState) (sb rb : List Nat) (ra dr : Bool) (pfx : String)
    (s e : Nat) (res : ReplacementResult) (memF : List Nat)
    (hdisj : rangesDisjoint (heapRangesOf st.mapsLines))
    (hmem : (s, e) ∈ heapRangesOf st.mapsLines)
    (h : (find_and_replace st sb rb ra dr (some pfx)).2 = Except.ok (res, memF)) :
    Event.backupWrite (backupName pfx s e) (readMem st.mem s (e - s))
        ∈ (find_and_replace st sb rb ra dr (some pfx)).1
    ∧ ((find_and_replace st sb rb ra dr (some pfx)).1.takeWhile
          (fun ev => decide (ev ≠ Event.backupWrite (backupName pfx s e)
            (readMem st.mem s (e - s))))).all
        (fun ev => ! writesIntoB ev s e) = true := by
  obtain ⟨hrb, hpr, htr⟩ :=
    find_and_replace_ok st sb rb ra dr (some pfx) res memF h
  obtain ⟨pre, post, hsplit, hclean⟩ :=
    processRegions_backup_split (heapRangesOf st.mapsLines) sb rb ra dr pfx hrb
      st.mem st.mem s e (memF, res.count, res.addresses, res.backup_file)
      hdisj (fun _ _ _ => rfl) hmem hpr
  rw [htr, hsplit]
  constructor
  · simp
  · rw [List.all_eq_true]
    intro x hx
    have hxpre := takeWhile_ne_subset
      (Event.backupWrite (backupName pfx s e) (readMem st.mem s (e - s)))
      pre post x hx
    rw [hclean x hxpre]
    rfl

theorem claim5_witness :
    (rangesDisjoint (heapRangesOf stTwoRegions.mapsLines)
      ∧ (2, 4) ∈ heapRangesOf stTwoRegions.mapsLines
      ∧ (find_and_replace stTwoRegions [1] [9] true false (some "hb")).2
          = Except.ok
              ({ count := 2, addresses := [0, 2],
                 backup_file := some "hb_2-4.heapbak" }, [9, 0, 9, 0]))
    ∧ (Event.backupWrite (backupName "hb" 2 4) (readMem stTwoRegions.mem 2 (4 - 2))
          ∈ (find_and_replace stTwoRegions [1] [9] true false (some "hb")).1
      ∧ ((find_and_replace stTwoRegions [1] [9] true false (some "hb")).1.takeWhile
            (fun ev => decide (ev ≠ Event.backupWrite (backupName "hb" 2 4)
              (readMem stTwoRegions.mem 2 (4 - 2))))).all
          (fun ev => ! writesIntoB ev 2 4) = true) :=
  ⟨⟨by decide, by decide, by decide⟩,
   claim5 stTwoRegions [1] [9] true false "hb" 2 4
     { count := 2, addresses := [0, 2], backup_file := some "hb_2-4.heapbak" }
     [9, 0, 9, 0] (by decide) (by decide) (by decide)⟩

end ReadWriteHeap

namespace ReadWriteHeap

/-- C6: the claim "a region larger than the 100 MiB ceiling fails with
RegionTooLarge before any access, regardless of whether a backup was
requested" is false on the code: the size check lives only in
`_backup_region`, so without a backup request an oversized region is
read and patched normally — the run below succeeds and its trace reads
the oversized region. -/
theorem claim6_counterexample :
    find_and_replace stOversized [1] [2] false false none
      = ([Event.memRead 0 (MAX_HEAP_SIZE + 2), Event.memWrite 0 [2]],
         Except.ok ({ count := 1, addresses := [0], backup_file := none },
           [2, 2]))
    ∧ MAX_HEAP_SIZE < (MAX_HEAP_SIZE + 2) - 0
    ∧ touchesB (Event.memRead 0 (MAX_HEAP_SIZE + 2)) 0 (MAX_HEAP_SIZE + 2)
        = true := by
  refine ⟨by decide, by decide, by decide⟩

/-- C6 (amended): only when a backup is requested does the 100 MiB
ceiling apply: with a backup request and disjoint regions, an oversized
heap region makes the whole run fail with RegionTooLarge, and no event
of the run reads or writes any address of that region. -/
theorem claim6_amended (st : SysState) (sb rb : List Nat) (ra dr : Bool)
    (pfx : String) (s e : Nat)
    (hrb : rb.length ≤ sb.length)
    (hdisj : rangesDisjoint (heapRangesOf st.mapsLines))
    (hmem : (s, e) ∈ heapRangesOf st.mapsLines)
    (hsz : MAX_HEAP_SIZE < e - s) :
    (find_and_replace st sb rb ra dr (some pfx)).2
        = Except.error Err.regionTooLarge
    ∧ (find_and_replace st sb rb ra dr (some pfx)).1.all
        (fun ev => ! touchesB ev s e) = true := by
  have hlen : ¬ rb.length > sb.length := Nat.not_lt.mpr hrb
  have hemp : ¬ (heapRangesOf st.mapsLines).isEmpty = true := by
    intro hx
    rw [List.isEmpty_iff] at hx
    rw [hx] at hmem
    simp at hmem
  obtain ⟨herr, htouch⟩ := processRegions_oversized (heapRangesOf st.mapsLines)
    sb rb ra dr pfx hrb st.mem s e hdisj hmem hsz
  constructor
  · simp only [find_and_replace, if_neg hlen, locateHeapRegions, if_neg hemp]
    rw [herr]
  · simp only [find_and_replace, if_neg hlen, locateHeapRegions, if_neg hemp]
    rw [List.all_eq_true]
    intro ev hev
    rw [htouch ev hev]
    rfl

theorem claim6_witness :
    (([1] : List Nat).length ≤ ([1] : List Nat).length
      ∧ rangesDisjoint (heapRangesOf stOversized.mapsLines)
      ∧ (0, MAX_HEAP_SIZE + 2) ∈ heapRangesOf stOversized.mapsLines
      ∧ MAX_HEAP_SIZE < (MAX_HEAP_SIZE + 2) - 0)
    ∧ ((find_and_replace stOversized [1] [1] false false (some "hb")).2
          = Except.error Err.regionTooLarge
      ∧ (find_and_replace stOversized [1] [1] false false (some "hb")).1.all
          (fun ev => ! touchesB ev 0 (MAX_HEAP_SIZE + 2)) = true) :=
  ⟨⟨by decide, by decide, by decide, by decide⟩,
   claim6_amended stOversized [1] [1] false false "hb" 0 (MAX_HEAP_SIZE + 2)
     (by decide) (by decide) (by decide) (by decide)⟩

/-- C7: `find_and_replace` fails with the length-mismatch error exactly
when the replacement is longer than the search pattern, and in that case
it performs no memory access at all (its trace is empty). -/
theorem claim7 (st : SysState) (sb rb : List Nat) (ra dr : Bool)
    (bp : Option String) :
    ((find_and_replace st sb rb ra dr bp).2 = Except.error Err.lengthMismatch
        ↔ sb.length < rb.length)
    ∧ (¬ sb.length < rb.length
        ∨ find_and_replace st sb rb ra dr bp
            = ([], Except.error Err.lengthMismatch)) := by
  by_cases hlen : rb.length > sb.length
  · have heq : find_and_replace st sb rb ra dr bp
        = ([], Except.error Err.lengthMismatch) := by
      simp only [find_and_replace, if_pos hlen]
    refine ⟨?_, Or.inr heq⟩
    rw [heq]
    simp only [true_iff]
    exact hlen
  · refine ⟨?_, Or.inl hlen⟩
    simp only [iff_false_intro hlen, iff_false]
    intro hx
    by_cases hemp : (heapRangesOf st.mapsLines).isEmpty = true
    · simp only [find_and_replace, if_neg hlen, locateHeapRegions,
        if_pos hemp] at hx
      simp at hx
    · simp only [find_and_replace, if_neg hlen, locateHeapRegions,
        if_neg hemp] at hx
      cases hrest : (processRegions st.mem (heapRangesOf st.mapsLines)
          sb rb ra dr bp).2 with
      | error err =>
        rw [hrest] at hx
        simp only [Except.error.injEq] at hx
        subst hx
        exact processRegions_not_lengthMismatch (heapRangesOf st.mapsLines)
          sb rb ra dr bp st.mem hrest
      | ok out =>
        obtain ⟨m, c, a, bf⟩ := out
        rw [hrest] at hx
        simp at hx

theorem claim7_witness :
    ((find_and_replace stTwoRegions [1] [2, 3] false false none).2
        = Except.error Err.lengthMismatch
      ↔ ([1] : List Nat).length < ([2, 3] : List Nat).length)
    ∧ (¬ ([1] : List Nat).length < ([2, 3] : List Nat).length
        ∨ find_and_replace stTwoRegions [1] [2, 3] false false none
            = ([], Except.error Err.lengthMismatch)) :=
  claim7 stTwoRegions [1] [2, 3] false false none

/-- C8: a process identifier that does not resolve to an existing
process makes the run fail with ProcessNotFound before anything else
happens: the trace is empty, so no backup file is written and no memory
write is attempted. -/
theorem claim8 (st : SysState) (sb rb : List Nat) (ra dr : Bool)
    (bp : Option String) (h : st.procExists = false) :
    runTool st sb rb ra dr bp = ([], Except.error Err.processNotFound) := by
  simp [runTool, h]

theorem claim8_witness :
    stMissing.procExists = false
    ∧ runTool stMissing [1] [1] false false (some "hb")
        = ([], Except.error Err.processNotFound) :=
  ⟨by decide, claim8 stMissing [1] [1] false false (some "hb") (by decide)⟩

end ReadWriteHeap

namespace ReadWriteHeap

/-- C9: for every successful run (with a nonempty search pattern, as the
CLI guarantees, and regions in increasing maps order), the reported
count equals the number of recorded addresses, and the addresses are
strictly increasing: the scan offset only moves forward within each
region and regions are visited in address order. -/
theorem claim9 (st : SysState) (sb rb : List Nat) (ra dr : Bool)
    (bp : Option String) (res : ReplacementResult) (memF : List Nat)
    (hne : sb ≠ [])
    (hord : rangesOrdered (heapRangesOf st.mapsLines))
    (h : (find_and_replace st sb rb ra dr bp).2 = Except.ok (res, memF)) :
    res.count = res.addresses.length
    ∧ res.addresses.Pairwise (· < ·) := by
  obtain ⟨-, hpr, -⟩ := find_and_replace_ok st sb rb ra dr bp res memF h
  refine ⟨processRegions_count (heapRangesOf st.mapsLines) sb rb ra dr bp
    st.mem memF res.count res.addresses res.backup_file hpr, ?_⟩
  exact (processRegions_sorted (heapRangesOf st.mapsLines) sb rb ra dr bp hne
    st.mem memF res.count res.addresses res.backup_file hord hpr).1

theorem claim9_witness :
    (([1] : List Nat) ≠ []
      ∧ rangesOrdered (heapRangesOf stTwoRegions.mapsLines)
      ∧ (find_and_replace stTwoRegions [1] [9] false false none).2
          = Except.ok ((⟨2, [0, 2], none⟩ : ReplacementResult), [9, 0, 9, 0]))
    ∧ ((⟨2, [0, 2], none⟩ : ReplacementResult).count
          = (⟨2, [0, 2], none⟩ : ReplacementResult).addresses.length
      ∧ ((⟨2, [0, 2], none⟩ : ReplacementResult).addresses).Pairwise (· < ·)) :=
  ⟨⟨by decide, by decide, by decide⟩,
   claim9 stTwoRegions [1] [9] false false none
     ⟨2, [0, 2], none⟩ [9, 0, 9, 0]
     (by decide) (by decide) (by decide)⟩

/-- C10: when a backup prefix is given and the process has more than one
heap region, every successful run writes one backup file per region,
named after the region, in region order — but the returned result only
reports the backup path of the last region, because each region
overwrites the previously recorded backup_file. -/
theorem claim10 (st : SysState) (sb rb : List Nat) (ra dr : Bool)
    (pfx : String) (res : ReplacementResult) (memF : List Nat)
    (_hmulti : 1 < (heapRangesOf st.mapsLines).length)
    (h : (find_and_replace st sb rb ra dr (some pfx)).2 = Except.ok (res, memF)) :
    backupNames (find_and_replace st sb rb ra dr (some pfx)).1
      = (heapRangesOf st.mapsLines).map (fun r => backupName pfx r.1 r.2)
    ∧ res.backup_file
      = ((heapRangesOf st.mapsLines).getLast?).map
          (fun r => backupName pfx r.1 r.2) := by
  obtain ⟨hrb, hpr, htr⟩ :=
    find_and_replace_ok st sb rb ra dr (some pfx) res memF h
  obtain ⟨hnames, hbf⟩ := processRegions_backups (heapRangesOf st.mapsLines)
    sb rb ra dr pfx hrb st.mem memF res.count res.addresses res.backup_file hpr
  rw [htr]
  exact ⟨hnames, hbf⟩

theorem claim10_witness :
    (1 < (heapRangesOf stTwoRegions.mapsLines).length
      ∧ (find_and_replace stTwoRegions [1] [9] true false (some "hb")).2
          = Except.ok
              ((⟨2, [0, 2], some "hb_2-4.heapbak"⟩ : ReplacementResult),
                [9, 0, 9, 0]))
    ∧ (backupNames (find_and_replace stTwoRegions [1] [9] true false
          (some "hb")).1
        = (heapRangesOf stTwoRegions.mapsLines).map
            (fun r => backupName "hb" r.1 r.2)
      ∧ (⟨2, [0, 2], some "hb_2-4.heapbak"⟩ : ReplacementResult).backup_file
          = ((heapRangesOf stTwoRegions.mapsLines).getLast?).map
              (fun r => backupName "hb" r.1 r.2)) :=
  ⟨⟨by decide, by decide⟩,
   claim10 stTwoRegions [1] [9] true false "hb"
     ⟨2, [0, 2], some "hb_2-4.heapbak"⟩
     [9, 0, 9, 0] (by decide) (by decide)⟩

end ReadWriteHeap
